import Mathlib

/-!
Verification of the animation timeline engine of `bevy_map_editor` and of the
`triggers_demo` example.  The demo (`src/examples/animation/triggers_demo.rs`)
is embedded directly from its source.  The timeline engine itself (clip data
model, `advance`, `play`, `stop`, window tracking) is not part of the visible
source tree, so it is modelled from the specification, as documented on each
definition.
-/

namespace BevyMapAnimation

/-- Phase of a window event, mirroring `WindowPhase` used by the demo
(`Begin`/`Tick`/`End`). -/
inductive WindowPhase where
  | Begin
  | Tick
  | End
deriving DecidableEq, Repr

/-- Modelled from the spec: a trigger is "an instantaneous named event at a
fixed time within a clip" (missing from `src/`; only its consumers appear). -/
structure Trigger where
  name : String
  time : Nat
deriving DecidableEq, Repr

/-- Modelled from the spec: a window is a named interval `[start, end)` within
a clip (missing from `src/`). -/
structure Window where
  name : String
  start : Nat
  endTime : Nat
deriving DecidableEq, Repr

/-- Modelled from the spec: loop behaviour of a clip; the design must support
at least `Once`/`Loop` (missing from `src/`). -/
inductive LoopMode where
  | Once
  | Loop
deriving DecidableEq, Repr

/-- Modelled from the spec: `ClipTimeline` is the immutable per-clip
description: duration, loop mode, triggers, windows (missing from `src/`). -/
structure ClipTimeline where
  name : String
  duration : Nat
  loop_mode : LoopMode
  triggers : List Trigger
  windows : List Window
deriving DecidableEq, Repr

/-- Modelled from the spec: `PlaybackState` is the mutable per-entity record:
active clip reference, elapsed time within the loop, playing flag, loop count
(missing from `src/`). -/
structure PlaybackState where
  clip_ref : Option String
  elapsed : Nat
  playing : Bool
  loop_index : Nat
deriving DecidableEq, Repr

/-- Modelled from the spec: `WindowTracker` holds the set of window names
currently open (missing from `src/`; the demo only attaches a default one). -/
structure WindowTracker where
  open_windows : List String
deriving DecidableEq, Repr

/-- Modelled from the spec: the two event kinds delivered to listeners,
`TriggerEvent{animation_name, trigger_name}` and
`WindowEvent{animation_name, window_name, phase}` (missing from `src/`). -/
inductive AnimEvent where
  | trigger (animation : String) (trigger_name : String)
  | window (animation : String) (window_name : String) (phase : WindowPhase)
deriving DecidableEq, Repr

/-- An emitted event together with the time of its crossing point, used for
the ordering guarantee of the advancer. -/
structure TimedEvent where
  time : Nat
  ev : AnimEvent
deriving DecidableEq, Repr

/-- Modelled from the spec: the error taxonomy of §7: `UnknownClip`,
`MalformedTimeline`, `InvalidDeltaTime` (missing from `src/`). -/
inductive AnimError where
  | UnknownClip
  | MalformedTimeline
  | InvalidDeltaTime
deriving DecidableEq, Repr

/-- Modelled from the spec: Begin detection for one window over the sub-range
`(a, b]` of one loop pass: "Not open, interval crosses start
(old < start <= new) -> emit Begin". -/
def beginB (w : Window) (wasOpen : Bool) (a b : Nat) : Bool :=
  !wasOpen && decide (a < w.start) && decide (w.start ≤ b)

/-- Whether the window is open after Begin detection but before End
detection on the sub-range `(a, b]`. -/
def openNowB (w : Window) (wasOpen : Bool) (a b : Nat) : Bool :=
  wasOpen || beginB w wasOpen a b

/-- Modelled from the spec: End detection: "Open, interval crosses end ->
emit End, mark closed". -/
def endB (w : Window) (wasOpen : Bool) (a b : Nat) : Bool :=
  openNowB w wasOpen a b && decide (a < w.endTime) && decide (w.endTime ≤ b)

/-- Whether the window remains open after processing the sub-range `(a, b]`. -/
def stillB (w : Window) (wasOpen : Bool) (a b : Nat) : Bool :=
  openNowB w wasOpen a b && !endB w wasOpen a b

/-- Modelled from the spec: events emitted for one window over the sub-range
`(a, b]` of the pass with absolute base time `base`, and the resulting open
flag.  Begin crosses at `start`, End at `endTime`, and a Tick is emitted at
the end of the step while the window stays open and time progressed. -/
def windowSegEvents (anim : String) (w : Window) (wasOpen : Bool) (base a b : Nat) :
    List TimedEvent × Bool :=
  ((if beginB w wasOpen a b then [⟨base + w.start, .window anim w.name .Begin⟩] else []) ++
   (if endB w wasOpen a b then [⟨base + w.endTime, .window anim w.name .End⟩] else []) ++
   (if stillB w wasOpen a b && decide (a < b) then [⟨base + b, .window anim w.name .Tick⟩] else []),
   stillB w wasOpen a b)

/-- Update of the open-window set after processing one window: mark it open
when it remains open, remove it otherwise. -/
def updateOpen (openL : List String) (w : String) (still : Bool) : List String :=
  if still then (if openL.contains w then openL else w :: openL) else openL.erase w

/-- Modelled from the spec: process every window of the clip over one
sub-range, threading the open-window set through. -/
def processWindows (anim : String) : List Window → List String → Nat → Nat → Nat →
    List TimedEvent × List String
  | [], openL, _, _, _ => ([], openL)
  | w :: ws, openL, base, a, b =>
    ((windowSegEvents anim w (openL.contains w.name) base a b).1 ++
       (processWindows anim ws
         (updateOpen openL w.name (stillB w (openL.contains w.name) a b)) base a b).1,
     (processWindows anim ws
       (updateOpen openL w.name (stillB w (openL.contains w.name) a b)) base a b).2)

/-- Modelled from the spec: "a trigger at time T fires iff the half-open
interval `(old_elapsed, new_time]` contains T"; here over the sub-range
`(a, b]` of the pass with absolute base time `base`. -/
def triggerSegEvents (anim : String) (ts : List Trigger) (base a b : Nat) : List TimedEvent :=
  (ts.filter (fun t => decide (a < t.time) && decide (t.time ≤ b))).map
    (fun t => ⟨base + t.time, .trigger anim t.name⟩)

/-- Rank used for the tie-break: triggers before window events at an equal
crossing time. -/
def evRank : TimedEvent → Nat
  | ⟨_, .trigger _ _⟩ => 0
  | ⟨_, .window _ _ _⟩ => 1

/-- Sort key combining crossing time with the trigger-first tie-break. -/
def evKey (e : TimedEvent) : Nat := 2 * e.time + evRank e

/-- Total preorder on timed events induced by the sort key. -/
def keyLe (x y : TimedEvent) : Prop := evKey x ≤ evKey y

instance : DecidableRel keyLe := fun x y => inferInstanceAs (Decidable (evKey x ≤ evKey y))

instance : IsTotal TimedEvent keyLe := ⟨fun x y => Nat.le_total (evKey x) (evKey y)⟩

instance : IsTrans TimedEvent keyLe := ⟨fun _ _ _ h1 h2 => Nat.le_trans h1 h2⟩

/-- The ordering required by the spec: events are interleaved in time order of
their crossing point, and at an equal crossing time triggers precede window
events. -/
def evOrder (x y : TimedEvent) : Prop :=
  x.time < y.time ∨ (x.time = y.time ∧ (evRank x = 0 ∨ evRank y = 1))

/-- Modelled from the spec: all events of one sub-range, triggers and window
phase changes interleaved in time order with the fixed tie-break. -/
def segEvents (anim : String) (ts : List Trigger) (ws : List Window) (openL : List String)
    (base a b : Nat) : List TimedEvent × List String :=
  let pw := processWindows anim ws openL base a b
  (List.insertionSort keyLe (triggerSegEvents anim ts base a b ++ pw.1), pw.2)

/-- One sub-range of an advance step: `base` is the absolute start time of the
loop pass it belongs to, `(lo, hi]` the half-open range inside that pass. -/
structure Seg where
  base : Nat
  lo : Nat
  hi : Nat
deriving DecidableEq, Repr

/-- Modelled from the spec: conceptual unrolling of the loop wraps of one
advance step: the tail `(e, D]` of the current pass, whole passes `(0, D]`,
and the final partial pass.  `fuel` bounds the recursion; callers pass
`raw`, which suffices whenever the duration is positive. -/
def segmentsAux : Nat → Nat → Nat → Nat → Nat → List Seg
  | 0, base, e, raw, _ => [⟨base, e, raw⟩]
  | fuel + 1, base, e, raw, D =>
    if raw < D then [⟨base, e, raw⟩]
    else ⟨base, e, D⟩ :: segmentsAux fuel (base + D) 0 (raw - D) D

/-- Run the event generation over a list of sub-ranges, threading the
open-window set through and concatenating the events in pass order. -/
def runSegs (anim : String) (ts : List Trigger) (ws : List Window) :
    List String → List Seg → List TimedEvent × List String
  | openL, [] => ([], openL)
  | openL, seg :: rest =>
    let r1 := segEvents anim ts ws openL seg.base seg.lo seg.hi
    let r2 := runSegs anim ts ws r1.2 rest
    (r1.1 ++ r2.1, r2.2)

/-- Modelled from the spec: the `TimelineAdvancer` contract
`advance(state, tracker, clip, delta_time) -> Sequence<Event>` of §4.1:
negative `delta_time` is rejected with `InvalidDeltaTime`; a stopped state is
a no-op; otherwise `raw_new_time = elapsed + delta_time`, `Loop` wraps with
`new_time = raw mod duration` and `loop_index += floor(raw / duration)`
(each wrap unrolled), and `Once` clamps at `duration` and stops after
processing. -/
def advance (s : PlaybackState) (t : WindowTracker) (clip : ClipTimeline) (dt : Int) :
    Except AnimError (PlaybackState × WindowTracker × List TimedEvent) :=
  if dt < 0 then .error .InvalidDeltaTime
  else if s.playing = false then .ok (s, t, [])
  else
    let d := dt.toNat
    let e := s.elapsed
    let D := clip.duration
    let raw := e + d
    match clip.loop_mode with
    | .Loop =>
      let segs := segmentsAux raw (s.loop_index * D) e raw D
      let r := runSegs clip.name clip.triggers clip.windows t.open_windows segs
      .ok ({ s with elapsed := raw % D, loop_index := s.loop_index + raw / D }, ⟨r.2⟩, r.1)
    | .Once =>
      if raw < D then
        let r := runSegs clip.name clip.triggers clip.windows t.open_windows
          [⟨s.loop_index * D, e, raw⟩]
        .ok ({ s with elapsed := raw }, ⟨r.2⟩, r.1)
      else
        let r := runSegs clip.name clip.triggers clip.windows t.open_windows
          [⟨s.loop_index * D, e, D⟩]
        .ok ({ s with elapsed := D, playing := false }, ⟨r.2⟩, r.1)

/-- `advance` as a total step: on an error the caller keeps the previous
state, so a failed call returns the state unchanged together with the error. -/
def advanceStep (s : PlaybackState) (t : WindowTracker) (clip : ClipTimeline) (dt : Int) :
    PlaybackState × WindowTracker × List TimedEvent × Option AnimError :=
  match advance s t clip dt with
  | .ok r => (r.1, r.2.1, r.2.2, none)
  | .error err => (s, t, [], some err)

/-- Iterate `advanceStep` over a sequence of `delta_time` values,
accumulating the emitted events. -/
def advanceRun (clip : ClipTimeline) :
    PlaybackState × WindowTracker × List TimedEvent → List Int →
    PlaybackState × WindowTracker × List TimedEvent
  | acc, [] => acc
  | acc, d :: ds =>
    let r := advanceStep acc.1 acc.2.1 clip d
    advanceRun clip (r.1, r.2.1, acc.2.2 ++ r.2.2.1) ds

/-- Name of the active animation, used on emitted events. -/
def currentAnim (s : PlaybackState) : String := s.clip_ref.getD ""

/-- Modelled from the spec: synthetic `End` events force-closing every
currently open window, as required on `stop()` and on a clip switch. -/
def forcedEndEvents (s : PlaybackState) (t : WindowTracker) : List TimedEvent :=
  t.open_windows.map (fun nm => ⟨s.elapsed, .window (currentAnim s) nm .End⟩)

/-- Modelled from the spec: `stop()` sets `playing = false`, keeps `elapsed`
(freeze-frame), and force-closes all open windows. -/
def stopPlayback (s : PlaybackState) (t : WindowTracker) :
    PlaybackState × WindowTracker × List TimedEvent :=
  ({ s with playing := false }, ⟨[]⟩, forcedEndEvents s t)

/-- Resolve a clip name in the clip store. -/
def lookupClip (clips : List ClipTimeline) (nm : String) : Option ClipTimeline :=
  clips.find? (fun c => c.name == nm)

/-- Modelled from the spec: `play(name)` fails with `UnknownClip` on an
unregistered name; otherwise it force-closes the open windows of the old
clip, resets elapsed to 0 and the tracker, and starts playing — also when
`name` is the current clip (restart semantics). -/
def playClip (clips : List ClipTimeline) (nm : String) (s : PlaybackState) (t : WindowTracker) :
    Except AnimError (PlaybackState × WindowTracker × List TimedEvent) :=
  match lookupClip clips nm with
  | none => .error .UnknownClip
  | some _ => .ok (⟨some nm, 0, true, 0⟩, ⟨[]⟩, forcedEndEvents s t)

/-- An operation issued by the host: the exposed API surface of §6. -/
inductive Op where
  | play (nm : String)
  | stop
  | advance (dt : Int)
deriving DecidableEq, Repr

/-- Whole engine state for one entity: playback state, window tracker, and
the history of all events emitted so far. -/
structure EngineState where
  state : PlaybackState
  tracker : WindowTracker
  hist : List TimedEvent
deriving DecidableEq, Repr

/-- Initial state on entity spawn: "stopped, no clip". -/
def initEngine : EngineState := ⟨⟨none, 0, false, 0⟩, ⟨[]⟩, []⟩

/-- The clip the state currently refers to, if any. -/
def activeClip (clips : List ClipTimeline) (s : PlaybackState) : Option ClipTimeline :=
  match s.clip_ref with
  | none => none
  | some nm => lookupClip clips nm

/-- One engine step: failed operations leave the state unchanged; `advance`
with no active clip is a no-op returning no events. -/
def stepOp (clips : List ClipTimeline) (es : EngineState) : Op → EngineState
  | .play nm =>
    match playClip clips nm es.state es.tracker with
    | .ok r => ⟨r.1, r.2.1, es.hist ++ r.2.2⟩
    | .error _ => es
  | .stop =>
    let r := stopPlayback es.state es.tracker
    ⟨r.1, r.2.1, es.hist ++ r.2.2⟩
  | .advance dt =>
    match activeClip clips es.state with
    | none => es
    | some c =>
      match advance es.state es.tracker c dt with
      | .ok r => ⟨r.1, r.2.1, es.hist ++ r.2.2⟩
      | .error _ => es

/-- Run a sequence of operations from the spawn state. -/
def runOps (clips : List ClipTimeline) (ops : List Op) : EngineState :=
  ops.foldl (stepOp clips) initEngine

/-- Whether a timed event is a trigger event with the given trigger name. -/
def isTrigEv (nm : String) (ev : TimedEvent) : Bool :=
  match ev.ev with
  | .trigger _ n => n == nm
  | .window _ _ _ => false

/-- Whether a timed event is a window event with the given name and phase. -/
def isWinEv (nm : String) (ph : WindowPhase) (ev : TimedEvent) : Bool :=
  match ev.ev with
  | .trigger _ _ => false
  | .window _ n p => n == nm && p == ph

/-- Whether a timed event is a Begin or End window event with the given name
(Tick events do not count towards the open/closed matching). -/
def isBE (nm : String) (ev : TimedEvent) : Bool :=
  isWinEv nm .Begin ev || isWinEv nm .End ev

/-- `true` iff the most recently emitted Begin/End window event for `nm` is a
Begin, i.e. `nm` has an unmatched Begin in the history. -/
def lastIsBegin (l : List TimedEvent) (nm : String) : Bool :=
  match (l.filter (isBE nm)).getLast? with
  | some ev => isWinEv nm .Begin ev
  | none => false

/-- Number of firing points of a periodic trigger: times `x` in the half-open
absolute interval `(a, b]` congruent to `T` modulo the clip duration `D`. -/
def occ (T D a b : Nat) : Nat :=
  ((Finset.Ioc a b).filter (fun x => x % D = T % D)).card

/-- Modelled from the spec: the validation of §6 — positive duration, window
`start < end <= duration`, trigger times within range — plus distinct window
names so that the name-keyed tracker identifies windows. -/
def ValidClip (c : ClipTimeline) : Prop :=
  0 < c.duration ∧
  (∀ w ∈ c.windows, w.start < w.endTime ∧ w.endTime ≤ c.duration) ∧
  (c.windows.map Window.name).Nodup ∧
  (∀ tr ∈ c.triggers, tr.time ≤ c.duration)

instance (c : ClipTimeline) : Decidable (ValidClip c) := by
  unfold ValidClip; infer_instance

/-- Number of triggers named `nm` whose time lies in the half-open clip-local
interval `(a, b]`. -/
def trigCnt (ts : List Trigger) (nm : String) (a b : Nat) : Nat :=
  (ts.filter (fun tr => tr.name == nm)).countP
    (fun tr => decide (a < tr.time) && decide (tr.time ≤ b))

/-- Positional consistency of an open-window set with playback position `p`:
a window is recorded open exactly when `p` lies inside it and its start was
crossable (`start > 0`). -/
def PosOpen (ws : List Window) (openL : List String) (p : Nat) : Prop :=
  ∀ w ∈ ws, (w.name ∈ openL ↔ 0 < w.start ∧ w.start ≤ p ∧ p < w.endTime)

/-- Consistency of a tracker with a playback position `e` of a clip: the open
set holds exactly the windows containing `e` that have a crossable start. -/
def TrackerOK (c : ClipTimeline) (openL : List String) (e : Nat) : Prop :=
  openL.Nodup ∧ PosOpen c.windows openL e ∧
  (∀ nm ∈ openL, ∃ w ∈ c.windows, w.name = nm)

instance (c : ClipTimeline) (openL : List String) (e : Nat) :
    Decidable (TrackerOK c openL e) := by
  unfold TrackerOK PosOpen
  infer_instance

/-- Number of sub-ranges of an unrolled step whose half-open local range
`(lo, hi]` contains the clip-local time `T`. -/
def crossCount (T : Nat) (segs : List Seg) : Nat :=
  (segs.map (fun sg => if sg.lo < T ∧ T ≤ sg.hi then 1 else 0)).sum

/-- Well-formed chain of sub-ranges for a clip of duration `D`: the list
starts at local position `e`, ends at local position `f`, every range stays
inside `[0, D]`, and consecutive ranges are separated by a loop wrap (the
earlier one ends at `D`, the later one starts at `0` one pass later). -/
def ChainOK (D : Nat) : Nat → Nat → List Seg → Prop
  | e, f, [] => f = e
  | e, f, [sg] => sg.lo = e ∧ sg.lo ≤ sg.hi ∧ sg.hi ≤ D ∧ f = sg.hi
  | e, f, sg :: sg' :: rest => sg.lo = e ∧ sg.lo ≤ sg.hi ∧ sg.hi ≤ D ∧ sg.hi = D ∧
      sg'.base = sg.base + D ∧ ChainOK D 0 f (sg' :: rest)

/-- Invariant tying the engine pieces together: the tracker's open set is
duplicate-free, it holds exactly the names with an unmatched Begin in the
emitted history, and while playing the active clip resolves and is valid. -/
def EngInv (clips : List ClipTimeline) (es : EngineState) : Prop :=
  es.tracker.open_windows.Nodup ∧
  (∀ nm, lastIsBegin es.hist nm = es.tracker.open_windows.contains nm) ∧
  (es.state.playing = true → ∃ c, activeClip clips es.state = some c ∧ ValidClip c)

/-- Events of the demo: `AnimationTriggerEvent` as read by `handle_events`. -/
structure AnimationTriggerEvent where
  animation : String
  trigger_name : String
deriving DecidableEq, Repr

/-- Events of the demo: `AnimationWindowEvent` as read by `handle_events`. -/
structure AnimationWindowEvent where
  animation : String
  window_name : String
  phase : WindowPhase
deriving DecidableEq, Repr

/-- Debug rendering of a phase, as `{:?}` prints it in the demo. -/
def phaseDebugStr : WindowPhase → String
  | .Begin => "Begin"
  | .Tick => "Tick"
  | .End => "End"

/-- The message pushed for a trigger event in `handle_events`. -/
def fmtTriggerMsg (e : AnimationTriggerEvent) : String :=
  "TRIGGER: " ++ e.trigger_name ++ " (" ++ e.animation ++ ")"

/-- The message pushed for a window event in `handle_events`. -/
def fmtWindowMsg (e : AnimationWindowEvent) : String :=
  "WINDOW: " ++ e.window_name ++ " " ++ phaseDebugStr e.phase ++ " (" ++ e.animation ++ ")"

/-- The log after the two push loops of `handle_events`: every trigger event
is logged; a window event is logged only when its phase is not `Tick`. -/
def appendedLog (log : List String) (triggers : List AnimationTriggerEvent)
    (windows : List AnimationWindowEvent) : List String :=
  (log ++ triggers.map fmtTriggerMsg) ++
    (windows.filter (fun e => !(e.phase == WindowPhase.Tick))).map fmtWindowMsg

/-- The trailing loop of `handle_events`:
`while log.messages.len() > 10 { log.messages.remove(0); }`. -/
def trimLog (l : List String) : List String :=
  if 10 < l.length then trimLog l.tail else l
termination_by l.length
decreasing_by
  simp only [List.length_tail]
  omega

/-- The `handle_events` system of the demo, over one batch of read events. -/
def handle_events (log : List String) (triggers : List AnimationTriggerEvent)
    (windows : List AnimationWindowEvent) : List String :=
  trimLog (appendedLog log triggers windows)

/-- The "tongue" clip of the demo's `example_project.map.json`: duration
1000 ms, trigger "show_blurb" at 403 ms, window "enable_hitbox" 201-701 ms. -/
def demoClip : ClipTimeline :=
  ⟨"tongue", 1000, .Once, [⟨"show_blurb", 403⟩], [⟨"enable_hitbox", 201, 701⟩]⟩

/-- The demo clip with `Loop` mode, for looping scenarios. -/
def demoLoopClip : ClipTimeline :=
  ⟨"tongue", 1000, .Loop, [⟨"show_blurb", 403⟩], [⟨"enable_hitbox", 201, 701⟩]⟩

section Helpers

theorem sum_map_add {α : Type} (l : List α) (f g : α → Nat) :
    (l.map (fun x => f x + g x)).sum = (l.map f).sum + (l.map g).sum := by
  induction l with
  | nil => simp
  | cons a l ih => simp only [List.map_cons, List.sum_cons, ih]; omega

theorem sum_map_zero {α : Type} (l : List α) : (l.map (fun _ => (0 : Nat))).sum = 0 := by
  induction l with
  | nil => simp
  | cons a l ih => simp [ih]

theorem sum_map_swap {α β : Type} (xs : List α) (ys : List β) (f : α → β → Nat) :
    (xs.map (fun x => (ys.map (f x)).sum)).sum =
      (ys.map (fun y => (xs.map (fun x => f x y)).sum)).sum := by
  induction xs with
  | nil => simp [sum_map_zero]
  | cons a xs ih =>
    simp only [List.map_cons, List.sum_cons, ih]
    rw [← sum_map_add]

theorem countP_split {α : Type} (l : List α) (p q r : α → Bool)
    (hpq : ∀ a, r a = (p a || q a)) (hdisj : ∀ a, ¬(p a = true ∧ q a = true)) :
    l.countP r = l.countP p + l.countP q := by
  induction l with
  | nil => simp
  | cons a l ih =>
    simp only [List.countP_cons, ih, hpq]
    have := hdisj a
    cases hp : p a <;> cases hq : q a <;> simp_all <;> omega

theorem perm_pair_cases {α : Type} {l : List α} {x y : α} (h : l.Perm [x, y]) :
    l = [x, y] ∨ l = [y, x] := by
  have hlen := h.length_eq
  rcases l with _ | ⟨a, _ | ⟨b, _ | ⟨c, t⟩⟩⟩
  · simp at hlen
  · simp at hlen
  · have hmem : a = x ∨ a = y := by
      have h1 := h.mem_iff.mp (show a ∈ [a, b] by simp)
      simpa using h1
    rcases hmem with rfl | rfl
    · have hb : b = y := by simpa using List.perm_singleton.mp h.cons_inv
      rw [hb]
      exact Or.inl rfl
    · have hswap : ([x, a] : List α).Perm [a, x] := (List.Perm.swap x a []).symm
      have hb : b = x := by simpa using List.perm_singleton.mp ((h.trans hswap).cons_inv)
      rw [hb]
      exact Or.inr rfl
  · simp at hlen

theorem sorted_perm_pair {x y : TimedEvent} {l : List TimedEvent} (hs : l.Sorted keyLe)
    (hp : l.Perm [x, y]) (hk : evKey x < evKey y) : l = [x, y] := by
  rcases perm_pair_cases hp with rfl | rfl
  · rfl
  · exfalso
    simp only [List.sorted_cons, List.mem_singleton, forall_eq, keyLe] at hs
    omega

theorem trimLog_eq (l : List String) : trimLog l = l.drop (l.length - 10) := by
  have key : ∀ (n : Nat) (l : List String), l.length ≤ n →
      trimLog l = l.drop (l.length - 10) := by
    intro n
    induction n with
    | zero =>
      intro l hl
      have : l = [] := List.eq_nil_of_length_eq_zero (Nat.le_zero.mp hl)
      subst this
      rw [trimLog]
      simp
    | succ n ih =>
      intro l hl
      rw [trimLog]
      by_cases h : 10 < l.length
      · rw [if_pos h, ih l.tail (by simp [List.length_tail]; omega)]
        rw [← List.drop_one, List.drop_drop]
        have h4 : 1 + ((List.drop 1 l).length - 10) = l.length - 10 := by
          simp only [List.length_drop]
          omega
        rw [h4]
      · rw [if_neg h]
        have : l.length - 10 = 0 := by omega
        rw [this, List.drop_zero]
  exact key l.length l le_rfl

theorem countP_ext {α : Type} (p q : α → Bool) (l : List α) (h : ∀ x, p x = q x) :
    l.countP p = l.countP q := by
  induction l with
  | nil => simp
  | cons a l ih => simp [List.countP_cons, ih, h a]

theorem sum_map_ite_count {α : Type} (l : List α) (P : α → Prop) [DecidablePred P] :
    (l.map (fun x => if P x then 1 else 0)).sum = l.countP (fun x => decide (P x)) := by
  induction l with
  | nil => simp
  | cons a l ih =>
    simp only [List.map_cons, List.sum_cons, List.countP_cons, ih]
    by_cases h : P a <;> simp [h] <;> omega

end Helpers

section OccLemmas

theorem mod_eq_in_range {D T y : Nat} (hD : 0 < D) (hT1 : 0 < T) (hT2 : T ≤ D)
    (hy1 : 0 < y) (hy2 : y ≤ D) (h : y % D = T % D) : y = T := by
  rcases Nat.lt_or_ge y D with h1 | h1
  · rcases Nat.lt_or_ge T D with h2 | h2
    · rwa [Nat.mod_eq_of_lt h1, Nat.mod_eq_of_lt h2] at h
    · have hTD : T = D := le_antisymm hT2 h2
      subst hTD
      rw [Nat.mod_eq_of_lt h1, Nat.mod_self] at h
      omega
  · have hyD : y = D := le_antisymm hy2 h1
    rcases Nat.lt_or_ge T D with h2 | h2
    · rw [hyD, Nat.mod_self, Nat.mod_eq_of_lt h2] at h
      omega
    · have hTD : T = D := le_antisymm hT2 h2
      omega

theorem occ_seg {D T base e b : Nat} (hD : 0 < D) (hbase : D ∣ base) (hT1 : 0 < T)
    (hT2 : T ≤ D) (he : e < D) (hb : b ≤ D) :
    occ T D (base + e) (base + b) = if e < T ∧ T ≤ b then 1 else 0 := by
  obtain ⟨k, rfl⟩ := hbase
  unfold occ
  by_cases hc : e < T ∧ T ≤ b
  · rw [if_pos hc]
    have hset : (Finset.Ioc (D * k + e) (D * k + b)).filter (fun x => x % D = T % D)
        = {D * k + T} := by
      apply Finset.ext
      intro x
      simp only [Finset.mem_filter, Finset.mem_Ioc, Finset.mem_singleton]
      constructor
      · rintro ⟨⟨hx1, hx2⟩, hmod⟩
        obtain ⟨y, rfl⟩ : ∃ y, x = D * k + y := ⟨x - D * k, by omega⟩
        have hmod' : y % D = T % D := by rwa [Nat.mul_add_mod] at hmod
        have hy := mod_eq_in_range hD hT1 hT2 (by omega) (by omega) hmod'
        omega
      · rintro rfl
        refine ⟨⟨by omega, by omega⟩, ?_⟩
        rw [Nat.mul_add_mod]
    rw [hset, Finset.card_singleton]
  · rw [if_neg hc]
    rw [Finset.card_eq_zero]
    apply Finset.filter_eq_empty_iff.mpr
    intro x hx
    simp only [Finset.mem_Ioc] at hx
    intro hmod
    obtain ⟨y, rfl⟩ : ∃ y, x = D * k + y := ⟨x - D * k, by omega⟩
    have hmod' : y % D = T % D := by rwa [Nat.mul_add_mod] at hmod
    have hy := mod_eq_in_range hD hT1 hT2 (by omega) (by omega) hmod'
    omega

theorem occ_add {T D a b c : Nat} (hab : a ≤ b) (hbc : b ≤ c) :
    occ T D a b + occ T D b c = occ T D a c := by
  have hdis : Disjoint ((Finset.Ioc a b).filter (fun x => x % D = T % D))
      ((Finset.Ioc b c).filter (fun x => x % D = T % D)) := by
    apply Finset.disjoint_left.mpr
    intro x hx1 hx2
    simp only [Finset.mem_filter, Finset.mem_Ioc] at hx1 hx2
    omega
  unfold occ
  rw [← Finset.card_union_of_disjoint hdis, ← Finset.filter_union,
    Finset.Ioc_union_Ioc_eq_Ioc hab hbc]

theorem segmentsAux_crossCount {D T : Nat} (hD : 0 < D) (hT1 : 0 < T) (hT2 : T ≤ D) :
    ∀ (fuel base e raw : Nat), raw ≤ fuel → D ∣ base → e < D →
      crossCount T (segmentsAux fuel base e raw D) = occ T D (base + e) (base + raw) := by
  intro fuel
  induction fuel with
  | zero =>
    intro base e raw hraw hbase he
    have h0 : raw = 0 := Nat.le_zero.mp hraw
    subst h0
    rw [occ_seg hD hbase hT1 hT2 he (Nat.zero_le D)]
    simp [segmentsAux, crossCount]
  | succ fuel ih =>
    intro base e raw hraw hbase he
    rw [segmentsAux]
    by_cases h : raw < D
    · rw [if_pos h, occ_seg hD hbase hT1 hT2 he (le_of_lt h)]
      simp [crossCount]
    · rw [if_neg h]
      push_neg at h
      have hstep : crossCount T (⟨base, e, D⟩ :: segmentsAux fuel (base + D) 0 (raw - D) D)
          = (if e < T ∧ T ≤ D then 1 else 0)
            + crossCount T (segmentsAux fuel (base + D) 0 (raw - D) D) := by
        simp [crossCount]
      rw [hstep, ih (base + D) 0 (raw - D) (by omega) (dvd_add hbase dvd_rfl) hD]
      have e1 : base + D + 0 = base + D := by omega
      have e2 : base + D + (raw - D) = base + raw := by omega
      rw [e1, e2,
        ← occ_add (show base + e ≤ base + D by omega) (show base + D ≤ base + raw by omega),
        occ_seg hD hbase hT1 hT2 he (le_refl D)]

theorem segmentsAux_head_base (fuel base e raw D : Nat) :
    ∃ sg rest, segmentsAux fuel base e raw D = sg :: rest ∧ sg.base = base := by
  cases fuel with
  | zero => exact ⟨⟨base, e, raw⟩, [], rfl, rfl⟩
  | succ fuel =>
    rw [segmentsAux]
    by_cases h : raw < D
    · rw [if_pos h]
      exact ⟨⟨base, e, raw⟩, [], rfl, rfl⟩
    · rw [if_neg h]
      exact ⟨⟨base, e, D⟩, _, rfl, rfl⟩

theorem segmentsAux_chainOK {D : Nat} (hD : 0 < D) :
    ∀ (fuel base e raw : Nat), raw ≤ fuel → e ≤ raw → e < D →
      ChainOK D e (raw % D) (segmentsAux fuel base e raw D) := by
  intro fuel
  induction fuel with
  | zero =>
    intro base e raw hraw he hlt
    have h0 : raw = 0 := Nat.le_zero.mp hraw
    subst h0
    have he0 : e = 0 := Nat.le_zero.mp he
    subst he0
    show ChainOK D 0 (0 % D) [⟨base, 0, 0⟩]
    exact ⟨rfl, le_refl 0, Nat.zero_le D, Nat.zero_mod D⟩
  | succ fuel ih =>
    intro base e raw hraw he hlt
    rw [segmentsAux]
    by_cases h : raw < D
    · rw [if_pos h]
      exact ⟨rfl, he, le_of_lt h, Nat.mod_eq_of_lt h⟩
    · rw [if_neg h]
      push_neg at h
      obtain ⟨sg0, rest0, heq, hb0⟩ := segmentsAux_head_base fuel (base + D) 0 (raw - D) D
      have hrec := ih (base + D) 0 (raw - D) (by omega) (Nat.zero_le _) hD
      rw [heq] at hrec
      have hmod : (raw - D) % D = raw % D := (Nat.mod_eq_sub_mod h).symm
      rw [hmod] at hrec
      rw [heq]
      exact ⟨rfl, le_of_lt hlt, le_refl D, rfl, hb0, hrec⟩

end OccLemmas

section WindowLemmas

theorem updateOpen_mem_ne {openL : List String} {w nm : String} (still : Bool) (h : nm ≠ w) :
    nm ∈ updateOpen openL w still ↔ nm ∈ openL := by
  cases still with
  | false => simp [updateOpen, List.mem_erase_of_ne h]
  | true =>
    by_cases hc : openL.contains w
    · have hm : w ∈ openL := List.elem_iff.mp hc
      simp [updateOpen, hm]
    · have hm : w ∉ openL := fun x => hc (List.elem_iff.mpr x)
      simp [updateOpen, hm, h]

theorem updateOpen_nodup {openL : List String} {w : String} (still : Bool) (h : openL.Nodup) :
    (updateOpen openL w still).Nodup := by
  cases still with
  | false =>
    simp only [updateOpen, Bool.false_eq_true, if_false]
    exact h.erase w
  | true =>
    by_cases hc : openL.contains w
    · have hm : w ∈ openL := List.elem_iff.mp hc
      simpa [updateOpen, hm] using h
    · have hw : w ∉ openL := fun hm => hc (List.elem_iff.mpr hm)
      simp only [updateOpen, if_true]
      rw [if_neg hc]
      exact List.nodup_cons.mpr ⟨hw, h⟩

theorem updateOpen_mem_self {openL : List String} {w : String} (still : Bool)
    (h : openL.Nodup) : w ∈ updateOpen openL w still ↔ still = true := by
  cases still with
  | false => simp [updateOpen, h.mem_erase_iff]
  | true =>
    by_cases hc : openL.contains w
    · have hm : w ∈ openL := List.elem_iff.mp hc
      simp [updateOpen, hm]
    · have hm : w ∉ openL := fun x => hc (List.elem_iff.mpr x)
      simp [updateOpen, hm]

theorem windowSegEvents_countP_begin (anim : String) (w : Window) (was : Bool) (base a b : Nat) :
    (windowSegEvents anim w was base a b).1.countP (isWinEv w.name .Begin) =
      if beginB w was a b then 1 else 0 := by
  unfold windowSegEvents
  cases hb : beginB w was a b <;> cases hied : endB w was a b <;>
    cases hs : (stillB w was a b && decide (a < b)) <;>
      simp [List.countP_append, List.countP_cons, isWinEv]

theorem windowSegEvents_countP_end (anim : String) (w : Window) (was : Bool) (base a b : Nat) :
    (windowSegEvents anim w was base a b).1.countP (isWinEv w.name .End) =
      if endB w was a b then 1 else 0 := by
  unfold windowSegEvents
  cases hb : beginB w was a b <;> cases hied : endB w was a b <;>
    cases hs : (stillB w was a b && decide (a < b)) <;>
      simp [List.countP_append, List.countP_cons, isWinEv]

theorem windowSegEvents_countP_ne (anim : String) (w : Window) (was : Bool) (base a b : Nat)
    (nm : String) (h : nm ≠ w.name) (ph : WindowPhase) :
    (windowSegEvents anim w was base a b).1.countP (isWinEv nm ph) = 0 := by
  unfold windowSegEvents
  have hne : (w.name == nm) = false := beq_eq_false_iff_ne.mpr (Ne.symm h)
  cases hb : beginB w was a b <;> cases hied : endB w was a b <;>
    cases hs : (stillB w was a b && decide (a < b)) <;>
      simp [List.countP_append, List.countP_cons, isWinEv, hne]

theorem windowSegEvents_filter_BE (anim : String) (w : Window) (was : Bool) (base a b : Nat) :
    (windowSegEvents anim w was base a b).1.filter (isBE w.name) =
      (if beginB w was a b then [⟨base + w.start, .window anim w.name .Begin⟩] else []) ++
      (if endB w was a b then [⟨base + w.endTime, .window anim w.name .End⟩] else []) := by
  unfold windowSegEvents
  cases hb : beginB w was a b <;> cases hied : endB w was a b <;>
    cases hs : (stillB w was a b && decide (a < b)) <;>
      simp [List.filter_append, isBE, isWinEv]

theorem windowSegEvents_filter_BE_ne (anim : String) (w : Window) (was : Bool) (base a b : Nat)
    (nm : String) (h : nm ≠ w.name) :
    (windowSegEvents anim w was base a b).1.filter (isBE nm) = [] := by
  unfold windowSegEvents
  have hne : (w.name == nm) = false := beq_eq_false_iff_ne.mpr (Ne.symm h)
  cases hb : beginB w was a b <;> cases hied : endB w was a b <;>
    cases hs : (stillB w was a b && decide (a < b)) <;>
      simp [List.filter_append, isBE, isWinEv, hne]

theorem windowSegEvents_mem (anim : String) (w : Window) (was : Bool) (base a b : Nat)
    (ev : TimedEvent) (h : ev ∈ (windowSegEvents anim w was base a b).1) :
    (∃ ph, ev.ev = .window anim w.name ph) ∧ base + a < ev.time ∧ ev.time ≤ base + b := by
  unfold windowSegEvents at h
  simp only [List.mem_append] at h
  rcases h with (h | h) | h
  · by_cases hb : beginB w was a b
    · rw [if_pos hb] at h
      simp only [List.mem_singleton] at h
      subst h
      have hp : a < w.start ∧ w.start ≤ b := by
        simp only [beginB, Bool.and_eq_true, decide_eq_true_eq] at hb
        exact ⟨hb.1.2, hb.2⟩
      refine ⟨⟨.Begin, rfl⟩, ?_, ?_⟩ <;> dsimp only <;> omega
    · rw [if_neg hb] at h
      simp at h
  · by_cases hied : endB w was a b
    · rw [if_pos hied] at h
      simp only [List.mem_singleton] at h
      subst h
      have hp : a < w.endTime ∧ w.endTime ≤ b := by
        simp only [endB, Bool.and_eq_true, decide_eq_true_eq] at hied
        exact ⟨hied.1.2, hied.2⟩
      refine ⟨⟨.End, rfl⟩, ?_, ?_⟩ <;> dsimp only <;> omega
    · rw [if_neg hied] at h
      simp at h
  · by_cases hs : (stillB w was a b && decide (a < b)) = true
    · rw [if_pos hs] at h
      simp only [List.mem_singleton] at h
      subst h
      have hp : a < b := by
        simp only [Bool.and_eq_true, decide_eq_true_eq] at hs
        exact hs.2
      refine ⟨⟨.Tick, rfl⟩, ?_, ?_⟩ <;> dsimp only <;> omega
    · rw [if_neg hs] at h
      simp at h

end WindowLemmas

section ProcessLemmas

theorem contains_eq_of_mem_iff {l1 l2 : List String} {nm : String}
    (h : nm ∈ l1 ↔ nm ∈ l2) : l1.contains nm = l2.contains nm := by
  cases e1 : l1.contains nm <;> cases e2 : l2.contains nm
  · rfl
  · have hh : l1.contains nm = true := List.elem_iff.mpr (h.mpr (List.elem_iff.mp e2))
    rw [hh] at e1
    exact Bool.noConfusion e1
  · have hh : l2.contains nm = true := List.elem_iff.mpr (h.mp (List.elem_iff.mp e1))
    rw [hh] at e2
    exact Bool.noConfusion e2
  · rfl

theorem processWindows_nodup (anim : String) :
    ∀ (ws : List Window) (openL : List String) (base a b : Nat), openL.Nodup →
      ((processWindows anim ws openL base a b).2).Nodup := by
  intro ws
  induction ws with
  | nil => intro openL base a b h; exact h
  | cons w ws ih =>
    intro openL base a b h
    exact ih _ base a b (updateOpen_nodup _ h)

theorem processWindows_mem_ne (anim : String) :
    ∀ (ws : List Window) (openL : List String) (base a b : Nat) (nm : String),
      nm ∉ ws.map Window.name →
      (nm ∈ (processWindows anim ws openL base a b).2 ↔ nm ∈ openL) := by
  intro ws
  induction ws with
  | nil => intro openL base a b nm _; exact Iff.rfl
  | cons w ws ih =>
    intro openL base a b nm hn
    simp only [List.map_cons, List.mem_cons, not_or] at hn
    exact (ih _ base a b nm hn.2).trans (updateOpen_mem_ne _ hn.1)

theorem processWindows_countP_ne (anim : String) :
    ∀ (ws : List Window) (openL : List String) (base a b : Nat) (nm : String)
      (ph : WindowPhase), nm ∉ ws.map Window.name →
      (processWindows anim ws openL base a b).1.countP (isWinEv nm ph) = 0 := by
  intro ws
  induction ws with
  | nil => intro openL base a b nm ph _; rfl
  | cons w ws ih =>
    intro openL base a b nm ph hn
    simp only [List.map_cons, List.mem_cons, not_or] at hn
    show ((windowSegEvents anim w (openL.contains w.name) base a b).1 ++ _).countP _ = 0
    rw [List.countP_append, windowSegEvents_countP_ne anim w _ base a b nm hn.1 ph,
      ih _ base a b nm ph hn.2]

theorem processWindows_filter_BE_ne (anim : String) :
    ∀ (ws : List Window) (openL : List String) (base a b : Nat) (nm : String),
      nm ∉ ws.map Window.name →
      (processWindows anim ws openL base a b).1.filter (isBE nm) = [] := by
  intro ws
  induction ws with
  | nil => intro openL base a b nm _; rfl
  | cons w ws ih =>
    intro openL base a b nm hn
    simp only [List.map_cons, List.mem_cons, not_or] at hn
    show ((windowSegEvents anim w (openL.contains w.name) base a b).1 ++ _).filter _ = []
    rw [List.filter_append, windowSegEvents_filter_BE_ne anim w _ base a b nm hn.1,
      ih _ base a b nm hn.2, List.append_nil]

theorem processWindows_mem_shape (anim : String) :
    ∀ (ws : List Window) (openL : List String) (base a b : Nat) (ev : TimedEvent),
      ev ∈ (processWindows anim ws openL base a b).1 →
      ∃ w ∈ ws, (∃ ph, ev.ev = .window anim w.name ph) ∧
        base + a < ev.time ∧ ev.time ≤ base + b := by
  intro ws
  induction ws with
  | nil => intro openL base a b ev h; exact absurd h (List.not_mem_nil ev)
  | cons w ws ih =>
    intro openL base a b ev h
    rcases List.mem_append.mp h with h1 | h1
    · obtain ⟨hsh, hlo, hhi⟩ := windowSegEvents_mem anim w _ base a b ev h1
      exact ⟨w, List.mem_cons_self w ws, hsh, hlo, hhi⟩
    · obtain ⟨w', hw', hsh, hlo, hhi⟩ := ih _ base a b ev h1
      exact ⟨w', List.mem_cons_of_mem w hw', hsh, hlo, hhi⟩

theorem processWindows_countP_trig (anim : String) (ws : List Window) (openL : List String)
    (base a b : Nat) (nm : String) :
    (processWindows anim ws openL base a b).1.countP (isTrigEv nm) = 0 := by
  rw [List.countP_eq_zero]
  intro ev hev
  obtain ⟨w, _, ⟨ph, hsh⟩, _, _⟩ := processWindows_mem_shape anim ws openL base a b ev hev
  simp [isTrigEv, hsh]

theorem processWindows_window_spec (anim : String) :
    ∀ (ws : List Window) (openL : List String) (base a b : Nat),
      (ws.map Window.name).Nodup → openL.Nodup →
      ∀ w ∈ ws,
        ((w.name ∈ (processWindows anim ws openL base a b).2) ↔
            stillB w (openL.contains w.name) a b = true) ∧
        (processWindows anim ws openL base a b).1.countP (isWinEv w.name .Begin) =
          (if beginB w (openL.contains w.name) a b then 1 else 0) ∧
        (processWindows anim ws openL base a b).1.countP (isWinEv w.name .End) =
          (if endB w (openL.contains w.name) a b then 1 else 0) ∧
        (processWindows anim ws openL base a b).1.filter (isBE w.name) =
          ((if beginB w (openL.contains w.name) a b
              then [⟨base + w.start, AnimEvent.window anim w.name .Begin⟩] else []) ++
           (if endB w (openL.contains w.name) a b
              then [⟨base + w.endTime, AnimEvent.window anim w.name .End⟩] else [])) := by
  intro ws
  induction ws with
  | nil => intro openL base a b _ _ w hw; exact absurd hw (List.not_mem_nil w)
  | cons w0 ws ih =>
    intro openL base a b hnd hod w hw
    rw [List.map_cons] at hnd
    obtain ⟨hw0notin, hndtail⟩ := List.nodup_cons.mp hnd
    rcases List.mem_cons.mp hw with rfl | hwtail
    · constructor
      · show w.name ∈ (processWindows anim ws _ base a b).2 ↔ _
        exact (processWindows_mem_ne anim ws _ base a b w.name hw0notin).trans
          (updateOpen_mem_self _ hod)
      · refine ⟨?_, ?_, ?_⟩
        · show ((windowSegEvents anim w (openL.contains w.name) base a b).1 ++ _).countP _ = _
          rw [List.countP_append, windowSegEvents_countP_begin,
            processWindows_countP_ne anim ws _ base a b w.name _ hw0notin, Nat.add_zero]
        · show ((windowSegEvents anim w (openL.contains w.name) base a b).1 ++ _).countP _ = _
          rw [List.countP_append, windowSegEvents_countP_end,
            processWindows_countP_ne anim ws _ base a b w.name _ hw0notin, Nat.add_zero]
        · show ((windowSegEvents anim w (openL.contains w.name) base a b).1 ++ _).filter _ = _
          rw [List.filter_append, windowSegEvents_filter_BE,
            processWindows_filter_BE_ne anim ws _ base a b w.name hw0notin, List.append_nil]
    · have hne : w.name ≠ w0.name := by
        intro he
        exact hw0notin (he ▸ List.mem_map_of_mem Window.name hwtail)
      have hcont : (updateOpen openL w0.name
          (stillB w0 (openL.contains w0.name) a b)).contains w.name
          = openL.contains w.name :=
        contains_eq_of_mem_iff (updateOpen_mem_ne _ hne)
      have ihw := ih (updateOpen openL w0.name (stillB w0 (openL.contains w0.name) a b))
        base a b hndtail (updateOpen_nodup _ hod) w hwtail
      rw [hcont] at ihw
      obtain ⟨ihm, ihb, ihe, ihf⟩ := ihw
      refine ⟨ihm, ?_, ?_, ?_⟩
      · show ((windowSegEvents anim w0 (openL.contains w0.name) base a b).1 ++ _).countP _ = _
        rw [List.countP_append, windowSegEvents_countP_ne anim w0 _ base a b w.name hne .Begin,
          ihb, Nat.zero_add]
      · show ((windowSegEvents anim w0 (openL.contains w0.name) base a b).1 ++ _).countP _ = _
        rw [List.countP_append, windowSegEvents_countP_ne anim w0 _ base a b w.name hne .End,
          ihe, Nat.zero_add]
      · show ((windowSegEvents anim w0 (openL.contains w0.name) base a b).1 ++ _).filter _ = _
        rw [List.filter_append, windowSegEvents_filter_BE_ne anim w0 _ base a b w.name hne,
          ihf, List.nil_append]

end ProcessLemmas

section SegLemmas

theorem triggerSegEvents_countP (anim : String) (ts : List Trigger) (base a b : Nat)
    (nm : String) :
    (triggerSegEvents anim ts base a b).countP (isTrigEv nm) =
      ((ts.filter (fun tr => tr.name == nm)).map
        (fun tr => if a < tr.time ∧ tr.time ≤ b then 1 else 0)).sum := by
  unfold triggerSegEvents
  rw [List.countP_map, sum_map_ite_count, List.countP_filter, List.countP_filter]
  apply countP_ext
  intro t
  show ((t.name == nm) && (decide (a < t.time) && decide (t.time ≤ b)))
      = (decide (a < t.time ∧ t.time ≤ b) && (t.name == nm))
  by_cases h1 : a < t.time <;> by_cases h2 : t.time ≤ b <;>
    cases (t.name == nm) <;> simp [h1, h2]

theorem triggerSegEvents_mem (anim : String) (ts : List Trigger) (base a b : Nat)
    (ev : TimedEvent) (h : ev ∈ triggerSegEvents anim ts base a b) :
    (∃ nmt, ev.ev = AnimEvent.trigger anim nmt) ∧ base + a < ev.time ∧ ev.time ≤ base + b := by
  unfold triggerSegEvents at h
  simp only [List.mem_map, List.mem_filter, Bool.and_eq_true, decide_eq_true_eq] at h
  obtain ⟨t, ⟨_, h1, h2⟩, rfl⟩ := h
  exact ⟨⟨t.name, rfl⟩, by dsimp only; omega, by dsimp only; omega⟩

theorem triggerSegEvents_countP_win (anim : String) (ts : List Trigger) (base a b : Nat)
    (nm : String) (ph : WindowPhase) :
    (triggerSegEvents anim ts base a b).countP (isWinEv nm ph) = 0 := by
  rw [List.countP_eq_zero]
  intro ev hev
  obtain ⟨⟨nmt, hsh⟩, _, _⟩ := triggerSegEvents_mem anim ts base a b ev hev
  simp [isWinEv, hsh]

theorem triggerSegEvents_filter_BE (anim : String) (ts : List Trigger) (base a b : Nat)
    (nm : String) :
    (triggerSegEvents anim ts base a b).filter (isBE nm) = [] := by
  rw [List.filter_eq_nil_iff]
  intro ev hev
  obtain ⟨⟨nmt, hsh⟩, _, _⟩ := triggerSegEvents_mem anim ts base a b ev hev
  simp [isBE, isWinEv, hsh]

theorem segEvents_perm (anim : String) (ts : List Trigger) (ws : List Window)
    (openL : List String) (base a b : Nat) :
    (segEvents anim ts ws openL base a b).1.Perm
      (triggerSegEvents anim ts base a b ++ (processWindows anim ws openL base a b).1) :=
  List.perm_insertionSort keyLe _

theorem segEvents_snd (anim : String) (ts : List Trigger) (ws : List Window)
    (openL : List String) (base a b : Nat) :
    (segEvents anim ts ws openL base a b).2 = (processWindows anim ws openL base a b).2 := rfl

theorem segEvents_countP (anim : String) (ts : List Trigger) (ws : List Window)
    (openL : List String) (base a b : Nat) (p : TimedEvent → Bool) :
    (segEvents anim ts ws openL base a b).1.countP p =
      (triggerSegEvents anim ts base a b).countP p
        + (processWindows anim ws openL base a b).1.countP p := by
  rw [(segEvents_perm anim ts ws openL base a b).countP_eq, List.countP_append]

theorem segEvents_sorted (anim : String) (ts : List Trigger) (ws : List Window)
    (openL : List String) (base a b : Nat) :
    ((segEvents anim ts ws openL base a b).1).Sorted keyLe :=
  List.sorted_insertionSort keyLe _

theorem segEvents_mem_bounds (anim : String) (ts : List Trigger) (ws : List Window)
    (openL : List String) (base a b : Nat) (ev : TimedEvent)
    (h : ev ∈ (segEvents anim ts ws openL base a b).1) :
    base + a < ev.time ∧ ev.time ≤ base + b := by
  rcases List.mem_append.mp ((segEvents_perm anim ts ws openL base a b).mem_iff.mp h)
    with h1 | h1
  · exact (triggerSegEvents_mem anim ts base a b ev h1).2
  · obtain ⟨_, _, _, hlo, hhi⟩ := processWindows_mem_shape anim ws openL base a b ev h1
    exact ⟨hlo, hhi⟩

theorem segEvents_filter_BE_ne (anim : String) (ts : List Trigger) (ws : List Window)
    (openL : List String) (base a b : Nat) (nm : String) (h : nm ∉ ws.map Window.name) :
    (segEvents anim ts ws openL base a b).1.filter (isBE nm) = [] := by
  have hperm := (segEvents_perm anim ts ws openL base a b).filter (isBE nm)
  rw [List.filter_append, triggerSegEvents_filter_BE, List.nil_append,
    processWindows_filter_BE_ne anim ws openL base a b nm h] at hperm
  exact hperm.eq_nil

theorem segEvents_filter_BE (anim : String) (ts : List Trigger) (ws : List Window)
    (openL : List String) (base a b : Nat) (w : Window) (hw : w ∈ ws)
    (hnd : (ws.map Window.name).Nodup) (hod : openL.Nodup) (hse : w.start < w.endTime) :
    (segEvents anim ts ws openL base a b).1.filter (isBE w.name) =
      ((if beginB w (openL.contains w.name) a b
          then [⟨base + w.start, AnimEvent.window anim w.name .Begin⟩] else []) ++
       (if endB w (openL.contains w.name) a b
          then [⟨base + w.endTime, AnimEvent.window anim w.name .End⟩] else [])) := by
  have hperm := (segEvents_perm anim ts ws openL base a b).filter (isBE w.name)
  rw [List.filter_append, triggerSegEvents_filter_BE, List.nil_append,
    (processWindows_window_spec anim ws openL base a b hnd hod w hw).2.2.2] at hperm
  have hsorted : ((segEvents anim ts ws openL base a b).1.filter (isBE w.name)).Pairwise keyLe :=
    List.Pairwise.sublist (List.filter_sublist _) (segEvents_sorted anim ts ws openL base a b)
  cases hb : beginB w (openL.contains w.name) a b <;>
    cases hen : endB w (openL.contains w.name) a b <;>
      rw [hb, hen] at hperm <;> simp only [Bool.false_eq_true, if_false, if_true,
        List.nil_append, List.append_nil] at hperm ⊢
  · exact hperm.eq_nil
  · exact List.perm_singleton.mp hperm
  · exact List.perm_singleton.mp hperm
  · exact sorted_perm_pair hsorted hperm (by simp [evKey, evRank]; omega)

end SegLemmas

section PosLemmas

theorem window_step_pos {w : Window} {was : Bool} {a b : Nat}
    (hse : w.start < w.endTime) (hab : a ≤ b)
    (hpos : (was = true) ↔ (0 < w.start ∧ w.start ≤ a ∧ a < w.endTime)) :
    ((beginB w was a b = true) ↔ (a < w.start ∧ w.start ≤ b)) ∧
    ((endB w was a b = true) ↔ (0 < w.start ∧ a < w.endTime ∧ w.endTime ≤ b)) ∧
    ((stillB w was a b = true) ↔ (0 < w.start ∧ w.start ≤ b ∧ b < w.endTime)) := by
  cases was with
  | true =>
    have hp := hpos.mp rfl
    refine ⟨?_, ?_, ?_⟩ <;> simp [beginB, endB, stillB, openNowB] <;> omega
  | false =>
    have hp : ¬(0 < w.start ∧ w.start ≤ a ∧ a < w.endTime) := by
      intro x
      exact absurd (hpos.mpr x) (by simp)
    refine ⟨?_, ?_, ?_⟩ <;> simp [beginB, endB, stillB, openNowB] <;> omega

theorem pos_bridge {ws : List Window} {openL : List String} {D : Nat}
    (hvD : ∀ w ∈ ws, w.endTime ≤ D) (h : PosOpen ws openL D) : PosOpen ws openL 0 := by
  intro w hw
  rw [h w hw]
  have := hvD w hw
  omega

theorem segStep_pos (anim : String) (ts : List Trigger) (ws : List Window)
    (openL : List String) (base a b : Nat)
    (hnd : (ws.map Window.name).Nodup) (hod : openL.Nodup)
    (hvse : ∀ w ∈ ws, w.start < w.endTime) (hab : a ≤ b) (hpos : PosOpen ws openL a) :
    PosOpen ws (segEvents anim ts ws openL base a b).2 b ∧
    ((segEvents anim ts ws openL base a b).2).Nodup ∧
    (∀ nm ∈ (segEvents anim ts ws openL base a b).2,
        nm ∈ openL ∨ nm ∈ ws.map Window.name) ∧
    (∀ w ∈ ws,
      (segEvents anim ts ws openL base a b).1.countP (isWinEv w.name .Begin)
          = (if a < w.start ∧ w.start ≤ b then 1 else 0) ∧
      (segEvents anim ts ws openL base a b).1.countP (isWinEv w.name .End)
          = (if 0 < w.start ∧ a < w.endTime ∧ w.endTime ≤ b then 1 else 0)) := by
  rw [segEvents_snd]
  refine ⟨?_, processWindows_nodup anim ws openL base a b hod, ?_, ?_⟩
  · intro w hw
    have hcont : (openL.contains w.name = true) ↔
        (0 < w.start ∧ w.start ≤ a ∧ a < w.endTime) :=
      List.elem_iff.trans (hpos w hw)
    have hstep := window_step_pos (hvse w hw) hab hcont
    rw [(processWindows_window_spec anim ws openL base a b hnd hod w hw).1]
    exact hstep.2.2
  · intro nm hnm
    by_cases hin : nm ∈ ws.map Window.name
    · exact Or.inr hin
    · exact Or.inl ((processWindows_mem_ne anim ws openL base a b nm hin).mp hnm)
  · intro w hw
    have hcont : (openL.contains w.name = true) ↔
        (0 < w.start ∧ w.start ≤ a ∧ a < w.endTime) :=
      List.elem_iff.trans (hpos w hw)
    have hstep := window_step_pos (hvse w hw) hab hcont
    obtain ⟨_, hcb, hce, _⟩ := processWindows_window_spec anim ws openL base a b hnd hod w hw
    constructor
    · rw [segEvents_countP, triggerSegEvents_countP_win, Nat.zero_add, hcb]
      simp only [hstep.1]
    · rw [segEvents_countP, triggerSegEvents_countP_win, Nat.zero_add, hce]
      simp only [hstep.2.1]

end PosLemmas

section RunLemmas

theorem runSegs_nil (anim : String) (ts : List Trigger) (ws : List Window)
    (openL : List String) : runSegs anim ts ws openL [] = ([], openL) := rfl

theorem runSegs_cons_fst (anim : String) (ts : List Trigger) (ws : List Window)
    (openL : List String) (sg : Seg) (rest : List Seg) :
    (runSegs anim ts ws openL (sg :: rest)).1 =
      (segEvents anim ts ws openL sg.base sg.lo sg.hi).1 ++
        (runSegs anim ts ws (segEvents anim ts ws openL sg.base sg.lo sg.hi).2 rest).1 := rfl

theorem runSegs_cons_snd (anim : String) (ts : List Trigger) (ws : List Window)
    (openL : List String) (sg : Seg) (rest : List Seg) :
    (runSegs anim ts ws openL (sg :: rest)).2 =
      (runSegs anim ts ws (segEvents anim ts ws openL sg.base sg.lo sg.hi).2 rest).2 := rfl

theorem crossCount_nil (T : Nat) : crossCount T [] = 0 := rfl

theorem crossCount_cons (T : Nat) (sg : Seg) (rest : List Seg) :
    crossCount T (sg :: rest) =
      (if sg.lo < T ∧ T ≤ sg.hi then 1 else 0) + crossCount T rest := by
  simp [crossCount]

theorem runSegs_countP_trig (anim : String) (ts : List Trigger) (ws : List Window) :
    ∀ (segs : List Seg) (openL : List String) (nm : String),
      (runSegs anim ts ws openL segs).1.countP (isTrigEv nm) =
        ((ts.filter (fun tr => tr.name == nm)).map
          (fun tr => crossCount tr.time segs)).sum := by
  intro segs
  induction segs with
  | nil =>
    intro openL nm
    show ([] : List TimedEvent).countP _ = _
    rw [List.countP_nil]
    exact (sum_map_zero _).symm
  | cons sg rest ih =>
    intro openL nm
    rw [runSegs_cons_fst, List.countP_append, segEvents_countP,
      processWindows_countP_trig, Nat.add_zero, triggerSegEvents_countP, ih]
    rw [← sum_map_add]
    have hpt : ∀ tr : Trigger,
        ((if sg.lo < tr.time ∧ tr.time ≤ sg.hi then 1 else 0) + crossCount tr.time rest)
          = crossCount tr.time (sg :: rest) := by
      intro tr
      simp [crossCount]
    simp only [hpt]

theorem runSegs_pos (anim : String) (ts : List Trigger) (ws : List Window) (D : Nat)
    (hnd : (ws.map Window.name).Nodup)
    (hvse : ∀ w ∈ ws, w.start < w.endTime) (hvD : ∀ w ∈ ws, w.endTime ≤ D) :
    ∀ (segs : List Seg) (openL : List String) (a f : Nat),
      ChainOK D a f segs → openL.Nodup → PosOpen ws openL a →
      PosOpen ws (runSegs anim ts ws openL segs).2 f ∧
      ((runSegs anim ts ws openL segs).2).Nodup ∧
      (∀ nm ∈ (runSegs anim ts ws openL segs).2, nm ∈ openL ∨ nm ∈ ws.map Window.name) ∧
      (∀ w ∈ ws,
        (runSegs anim ts ws openL segs).1.countP (isWinEv w.name .Begin)
            = crossCount w.start segs ∧
        (runSegs anim ts ws openL segs).1.countP (isWinEv w.name .End)
            = (if 0 < w.start then crossCount w.endTime segs else 0)) := by
  intro segs
  induction segs with
  | nil =>
    intro openL a f hch hod hpos
    have hf : f = a := hch
    subst hf
    refine ⟨hpos, hod, fun nm h => Or.inl h, fun w hw => ⟨?_, ?_⟩⟩ <;>
      simp [crossCount, runSegs]
  | cons sg rest ih =>
    intro openL a f hch hod hpos
    rcases rest with _ | ⟨sg', rest'⟩
    · obtain ⟨hlo, hlohi, hhiD, hfhi⟩ := hch
      subst hlo
      subst hfhi
      have hstep := segStep_pos anim ts ws openL sg.base sg.lo sg.hi hnd hod hvse hlohi hpos
      refine ⟨hstep.1, hstep.2.1, hstep.2.2.1, ?_⟩
      intro w hw
      obtain ⟨hcb, hce⟩ := hstep.2.2.2 w hw
      constructor
      · rw [runSegs_cons_fst, List.countP_append]
        show _ + ([] : List TimedEvent).countP _ = _
        rw [List.countP_nil, Nat.add_zero, hcb, crossCount_cons, crossCount_nil,
          Nat.add_zero]
      · rw [runSegs_cons_fst, List.countP_append]
        show _ + ([] : List TimedEvent).countP _ = _
        rw [List.countP_nil, Nat.add_zero, hce]
        by_cases hs : 0 < w.start
        · simp [hs, crossCount]
        · simp [hs, crossCount]
    · obtain ⟨hlo, hlohi, hhiD, hhieq, hbase', hch'⟩ := hch
      subst hlo
      have hstep := segStep_pos anim ts ws openL sg.base sg.lo sg.hi hnd hod hvse hlohi hpos
      have hposD : PosOpen ws (segEvents anim ts ws openL sg.base sg.lo sg.hi).2 D :=
        hhieq ▸ hstep.1
      have hpos0 : PosOpen ws (segEvents anim ts ws openL sg.base sg.lo sg.hi).2 0 :=
        pos_bridge hvD hposD
      have hrec := ih (segEvents anim ts ws openL sg.base sg.lo sg.hi).2 0 f hch'
        hstep.2.1 hpos0
      refine ⟨hrec.1, hrec.2.1, ?_, ?_⟩
      · intro nm hnm
        rcases hrec.2.2.1 nm hnm with h1 | h1
        · exact hstep.2.2.1 nm h1
        · exact Or.inr h1
      · intro w hw
        obtain ⟨hcb, hce⟩ := hstep.2.2.2 w hw
        obtain ⟨hrb, hre⟩ := hrec.2.2.2 w hw
        constructor
        · rw [runSegs_cons_fst, List.countP_append, hcb, hrb, ← crossCount_cons]
        · rw [runSegs_cons_fst, List.countP_append, hce, hre]
          by_cases hs : 0 < w.start
          · simp only [hs, true_and, if_true]
            rw [← crossCount_cons]
          · simp [hs]

theorem decide_bool_eq (b : Bool) : decide (b = true) = b := by
  cases b <;> simp

theorem contains_eq_decide_mem (l : List String) (nm : String) :
    l.contains nm = decide (nm ∈ l) := by
  cases hc : l.contains nm
  · have hnm : nm ∉ l := fun hm => by
      have h2 : l.contains nm = true := List.elem_iff.mpr hm
      rw [h2] at hc
      exact Bool.noConfusion hc
    simp [hnm]
  · simp [List.elem_iff.mp hc]

theorem lastIsBegin_append_nil {l1 l2 : List TimedEvent} {nm : String}
    (h : l2.filter (isBE nm) = []) :
    lastIsBegin (l1 ++ l2) nm = lastIsBegin l1 nm := by
  unfold lastIsBegin
  rw [List.filter_append, h, List.append_nil]

theorem lastIsBegin_append_single {l1 l2 : List TimedEvent} {nm : String} {x : TimedEvent}
    (h : l2.filter (isBE nm) = [x]) :
    lastIsBegin (l1 ++ l2) nm = isWinEv nm .Begin x := by
  unfold lastIsBegin
  rw [List.filter_append, h, List.getLast?_concat]

theorem lastIsBegin_append_pair {l1 l2 : List TimedEvent} {nm : String} {x y : TimedEvent}
    (h : l2.filter (isBE nm) = [x, y]) :
    lastIsBegin (l1 ++ l2) nm = isWinEv nm .Begin y := by
  unfold lastIsBegin
  rw [List.filter_append, h,
    show l1.filter (isBE nm) ++ [x, y] = (l1.filter (isBE nm) ++ [x]) ++ [y] by simp,
    List.getLast?_concat]

theorem stillB_shape {w : Window} {was : Bool} {a b : Nat} :
    (beginB w was a b = false → endB w was a b = false → stillB w was a b = was) ∧
    (beginB w was a b = true → endB w was a b = false → stillB w was a b = true) ∧
    (endB w was a b = true → stillB w was a b = false) := by
  refine ⟨?_, ?_, ?_⟩ <;> intro h1 <;>
    first
      | (intro h2; cases was <;> simp [stillB, openNowB, h1, h2])
      | (cases was <;> simp [stillB, openNowB, h1])

theorem segStep_lastBE (anim : String) (ts : List Trigger) (ws : List Window)
    (openL : List String) (base a b : Nat) (hist : List TimedEvent)
    (hnd : (ws.map Window.name).Nodup) (hod : openL.Nodup)
    (hvse : ∀ w ∈ ws, w.start < w.endTime)
    (hinv : ∀ nm, lastIsBegin hist nm = openL.contains nm) :
    ∀ nm, lastIsBegin (hist ++ (segEvents anim ts ws openL base a b).1) nm
        = ((segEvents anim ts ws openL base a b).2).contains nm := by
  intro nm
  by_cases hin : nm ∈ ws.map Window.name
  · obtain ⟨w, hw, rfl⟩ := List.mem_map.mp hin
    have hfb := segEvents_filter_BE anim ts ws openL base a b w hw hnd hod (hvse w hw)
    have hmem := (processWindows_window_spec anim ws openL base a b hnd hod w hw).1
    have hcontr : ((segEvents anim ts ws openL base a b).2).contains w.name
        = stillB w (openL.contains w.name) a b := by
      rw [contains_eq_decide_mem, segEvents_snd,
        decide_eq_decide.mpr hmem]
      exact decide_bool_eq _
    rw [hcontr]
    cases hb : beginB w (openL.contains w.name) a b <;>
      cases hen : endB w (openL.contains w.name) a b <;>
        rw [hb, hen] at hfb <;>
          simp only [Bool.false_eq_true, if_false, if_true, List.nil_append,
            List.append_nil] at hfb
    · rw [lastIsBegin_append_nil hfb, hinv, stillB_shape.1 hb hen]
    · rw [lastIsBegin_append_single hfb, stillB_shape.2.2 hen]
      simp [isWinEv]
    · rw [lastIsBegin_append_single hfb, stillB_shape.2.1 hb hen]
      simp [isWinEv]
    · rw [lastIsBegin_append_pair hfb, stillB_shape.2.2 hen]
      simp [isWinEv]
  · have hfb := segEvents_filter_BE_ne anim ts ws openL base a b nm hin
    rw [lastIsBegin_append_nil hfb, hinv]
    apply contains_eq_of_mem_iff
    exact ((segEvents_snd anim ts ws openL base a b ▸
      processWindows_mem_ne anim ws openL base a b nm hin)).symm

theorem runSegs_lastBE (anim : String) (ts : List Trigger) (ws : List Window)
    (hnd : (ws.map Window.name).Nodup) (hvse : ∀ w ∈ ws, w.start < w.endTime) :
    ∀ (segs : List Seg) (openL : List String) (hist : List TimedEvent), openL.Nodup →
      (∀ nm, lastIsBegin hist nm = openL.contains nm) →
      (∀ nm, lastIsBegin (hist ++ (runSegs anim ts ws openL segs).1) nm
          = ((runSegs anim ts ws openL segs).2).contains nm) ∧
      ((runSegs anim ts ws openL segs).2).Nodup := by
  intro segs
  induction segs with
  | nil =>
    intro openL hist hod hinv
    refine ⟨fun nm => ?_, hod⟩
    rw [runSegs_nil]
    rw [List.append_nil]
    exact hinv nm
  | cons sg rest ih =>
    intro openL hist hod hinv
    have hstep := segStep_lastBE anim ts ws openL sg.base sg.lo sg.hi hist hnd hod hvse hinv
    have hnd2 : ((segEvents anim ts ws openL sg.base sg.lo sg.hi).2).Nodup := by
      rw [segEvents_snd]
      exact processWindows_nodup anim ws openL sg.base sg.lo sg.hi hod
    have hrec := ih (segEvents anim ts ws openL sg.base sg.lo sg.hi).2
      (hist ++ (segEvents anim ts ws openL sg.base sg.lo sg.hi).1) hnd2 hstep
    refine ⟨fun nm => ?_, hrec.2⟩
    rw [runSegs_cons_fst, runSegs_cons_snd, ← List.append_assoc]
    exact hrec.1 nm

theorem evRank_le_one (ev : TimedEvent) : evRank ev ≤ 1 := by
  rcases ev with ⟨t, e⟩
  cases e <;> simp [evRank]

theorem keyLe_of_time_lt {x y : TimedEvent} (h : x.time < y.time) : keyLe x y := by
  have h1 := evRank_le_one x
  unfold keyLe evKey
  omega

theorem runSegs_sorted (anim : String) (ts : List Trigger) (ws : List Window) (D : Nat) :
    ∀ (segs : List Seg) (openL : List String) (a f : Nat),
      ChainOK D a f segs →
      ((runSegs anim ts ws openL segs).1).Pairwise keyLe ∧
      (∀ sg rest', segs = sg :: rest' →
        ∀ ev ∈ (runSegs anim ts ws openL segs).1, sg.base + sg.lo < ev.time) := by
  intro segs
  induction segs with
  | nil =>
    intro openL a f _
    exact ⟨List.Pairwise.nil, fun sg rest' h => List.noConfusion h⟩
  | cons sg rest ih =>
    intro openL a f hch
    have hblock : ∀ ev ∈ (segEvents anim ts ws openL sg.base sg.lo sg.hi).1,
        sg.base + sg.lo < ev.time ∧ ev.time ≤ sg.base + sg.hi :=
      fun ev hev => segEvents_mem_bounds anim ts ws openL sg.base sg.lo sg.hi ev hev
    have hbsorted : ((segEvents anim ts ws openL sg.base sg.lo sg.hi).1).Pairwise keyLe :=
      segEvents_sorted anim ts ws openL sg.base sg.lo sg.hi
    rcases rest with _ | ⟨sg', rest'⟩
    · obtain ⟨hlo, hlohi, hhiD, hfhi⟩ := hch
      constructor
      · rw [runSegs_cons_fst]
        show ((segEvents anim ts ws openL sg.base sg.lo sg.hi).1 ++ []).Pairwise keyLe
        rw [List.append_nil]
        exact hbsorted
      · rintro sg0 rest0 heq ev hev
        injection heq with he1 he2
        subst he1
        rw [runSegs_cons_fst] at hev
        have hm : ev ∈ (segEvents anim ts ws openL sg.base sg.lo sg.hi).1 := by
          simpa [runSegs_nil] using hev
        exact (hblock ev hm).1
    · obtain ⟨hlo, hlohi, hhiD, hhieq, hbase', hch'⟩ := hch
      have hrec := ih (segEvents anim ts ws openL sg.base sg.lo sg.hi).2 0 f hch'
      have hrestlow : ∀ ev ∈ (runSegs anim ts ws
          (segEvents anim ts ws openL sg.base sg.lo sg.hi).2 (sg' :: rest')).1,
          sg.base + sg.hi < ev.time := by
        intro ev hev
        have := hrec.2 sg' rest' rfl ev hev
        rw [hbase'] at this
        omega
      constructor
      · rw [runSegs_cons_fst]
        rw [List.pairwise_append]
        refine ⟨hbsorted, hrec.1, ?_⟩
        intro x hx y hy
        have hxb := (hblock x hx).2
        have hyb := hrestlow y hy
        exact keyLe_of_time_lt (by omega)
      · rintro sg0 rest0 heq ev hev
        injection heq with he1 he2
        subst he1
        rw [runSegs_cons_fst] at hev
        rcases List.mem_append.mp hev with hm | hm
        · exact (hblock ev hm).1
        · have := hrestlow ev hm
          omega

end RunLemmas

section AdvanceLemmas

theorem advance_neg (s : PlaybackState) (t : WindowTracker) (clip : ClipTimeline) (dt : Int)
    (h : dt < 0) : advance s t clip dt = .error .InvalidDeltaTime := by
  unfold advance
  rw [if_pos h]

theorem advance_stopped (s : PlaybackState) (t : WindowTracker) (clip : ClipTimeline)
    (dt : Int) (hdt : ¬ dt < 0) (hplay : s.playing = false) :
    advance s t clip dt = .ok (s, t, []) := by
  unfold advance
  rw [if_neg hdt, if_pos hplay]

theorem advance_loop_eq (s : PlaybackState) (t : WindowTracker) (clip : ClipTimeline)
    (dt : Int) (hdt : ¬ dt < 0) (hplay : s.playing = true)
    (hmode : clip.loop_mode = .Loop) :
    advance s t clip dt = .ok
      ({ s with
          elapsed := (s.elapsed + dt.toNat) % clip.duration,
          loop_index := s.loop_index + (s.elapsed + dt.toNat) / clip.duration },
        ⟨(runSegs clip.name clip.triggers clip.windows t.open_windows
            (segmentsAux (s.elapsed + dt.toNat) (s.loop_index * clip.duration)
              s.elapsed (s.elapsed + dt.toNat) clip.duration)).2⟩,
        (runSegs clip.name clip.triggers clip.windows t.open_windows
          (segmentsAux (s.elapsed + dt.toNat) (s.loop_index * clip.duration)
            s.elapsed (s.elapsed + dt.toNat) clip.duration)).1) := by
  unfold advance
  rw [if_neg hdt, if_neg (by rw [hplay]; exact fun h => Bool.noConfusion h), hmode]

theorem advance_once_lt (s : PlaybackState) (t : WindowTracker) (clip : ClipTimeline)
    (dt : Int) (hdt : ¬ dt < 0) (hplay : s.playing = true)
    (hmode : clip.loop_mode = .Once) (hlt : s.elapsed + dt.toNat < clip.duration) :
    advance s t clip dt = .ok
      ({ s with elapsed := s.elapsed + dt.toNat },
        ⟨(runSegs clip.name clip.triggers clip.windows t.open_windows
            [⟨s.loop_index * clip.duration, s.elapsed, s.elapsed + dt.toNat⟩]).2⟩,
        (runSegs clip.name clip.triggers clip.windows t.open_windows
          [⟨s.loop_index * clip.duration, s.elapsed, s.elapsed + dt.toNat⟩]).1) := by
  unfold advance
  rw [if_neg hdt, if_neg (by rw [hplay]; exact fun h => Bool.noConfusion h), hmode]
  dsimp only
  rw [if_pos hlt]

theorem advance_once_ge (s : PlaybackState) (t : WindowTracker) (clip : ClipTimeline)
    (dt : Int) (hdt : ¬ dt < 0) (hplay : s.playing = true)
    (hmode : clip.loop_mode = .Once) (hge : ¬ s.elapsed + dt.toNat < clip.duration) :
    advance s t clip dt = .ok
      ({ s with elapsed := clip.duration, playing := false },
        ⟨(runSegs clip.name clip.triggers clip.windows t.open_windows
            [⟨s.loop_index * clip.duration, s.elapsed, clip.duration⟩]).2⟩,
        (runSegs clip.name clip.triggers clip.windows t.open_windows
          [⟨s.loop_index * clip.duration, s.elapsed, clip.duration⟩]).1) := by
  unfold advance
  rw [if_neg hdt, if_neg (by rw [hplay]; exact fun h => Bool.noConfusion h), hmode]
  dsimp only
  rw [if_neg hge]

theorem mul_add_uniq {D a b x y : Nat} (hD : 0 < D) (hx : x < D) (hy : y < D)
    (h : a * D + x = b * D + y) : a = b ∧ x = y := by
  have h1 : (a * D + x) / D = a := by
    rw [Nat.mul_comm a D, Nat.mul_add_div hD, Nat.div_eq_of_lt hx, Nat.add_zero]
  have h2 : (b * D + y) / D = b := by
    rw [Nat.mul_comm b D, Nat.mul_add_div hD, Nat.div_eq_of_lt hy, Nat.add_zero]
  have h3 : (a * D + x) % D = x := by
    rw [Nat.mul_comm a D, Nat.mul_add_mod, Nat.mod_eq_of_lt hx]
  have h4 : (b * D + y) % D = y := by
    rw [Nat.mul_comm b D, Nat.mul_add_mod, Nat.mod_eq_of_lt hy]
  constructor
  · rw [← h1, ← h2, h]
  · rw [← h3, ← h4, h]

theorem keyLe_imp_evOrder {x y : TimedEvent} (h : keyLe x y) : evOrder x y := by
  have h1 := evRank_le_one x
  have h2 := evRank_le_one y
  unfold keyLe evKey at h
  unfold evOrder
  omega

theorem advanceRun_nil (clip : ClipTimeline) (acc : PlaybackState × WindowTracker × List TimedEvent) :
    advanceRun clip acc [] = acc := rfl

theorem advanceRun_cons (clip : ClipTimeline) (acc : PlaybackState × WindowTracker × List TimedEvent)
    (d : Int) (ds : List Int) :
    advanceRun clip acc (d :: ds) =
      advanceRun clip ((advanceStep acc.1 acc.2.1 clip d).1,
        (advanceStep acc.1 acc.2.1 clip d).2.1,
        acc.2.2 ++ (advanceStep acc.1 acc.2.1 clip d).2.2.1) ds := rfl

theorem advanceStep_loop_spec (s : PlaybackState) (t : WindowTracker) (clip : ClipTimeline)
    (dt : Int) (hmode : clip.loop_mode = .Loop) (hplay : s.playing = true)
    (hD : 0 < clip.duration) (he : s.elapsed < clip.duration) (hdt : ¬ dt < 0) :
    (advanceStep s t clip dt).1.playing = true ∧
    (advanceStep s t clip dt).1.clip_ref = s.clip_ref ∧
    (advanceStep s t clip dt).1.elapsed < clip.duration ∧
    (advanceStep s t clip dt).1.loop_index * clip.duration
        + (advanceStep s t clip dt).1.elapsed
      = s.loop_index * clip.duration + s.elapsed + dt.toNat ∧
    ((∀ tr ∈ clip.triggers, 0 < tr.time ∧ tr.time ≤ clip.duration) →
      ∀ nm, ((advanceStep s t clip dt).2.2.1).countP (isTrigEv nm) =
      ((clip.triggers.filter (fun tr => tr.name == nm)).map
        (fun tr => occ tr.time clip.duration
          (s.loop_index * clip.duration + s.elapsed)
          (s.loop_index * clip.duration + s.elapsed + dt.toNat))).sum) := by
  have heq := advance_loop_eq s t clip dt hdt hplay hmode
  have hstep : advanceStep s t clip dt =
      ({ s with
          elapsed := (s.elapsed + dt.toNat) % clip.duration,
          loop_index := s.loop_index + (s.elapsed + dt.toNat) / clip.duration },
        ⟨(runSegs clip.name clip.triggers clip.windows t.open_windows
            (segmentsAux (s.elapsed + dt.toNat) (s.loop_index * clip.duration)
              s.elapsed (s.elapsed + dt.toNat) clip.duration)).2⟩,
        (runSegs clip.name clip.triggers clip.windows t.open_windows
          (segmentsAux (s.elapsed + dt.toNat) (s.loop_index * clip.duration)
            s.elapsed (s.elapsed + dt.toNat) clip.duration)).1, none) := by
    unfold advanceStep
    rw [heq]
  rw [hstep]
  refine ⟨hplay, rfl, Nat.mod_lt _ hD, ?_, ?_⟩
  · show (s.loop_index + (s.elapsed + dt.toNat) / clip.duration) * clip.duration
        + (s.elapsed + dt.toNat) % clip.duration
      = s.loop_index * clip.duration + s.elapsed + dt.toNat
    have hdm := Nat.div_add_mod (s.elapsed + dt.toNat) clip.duration
    calc (s.loop_index + (s.elapsed + dt.toNat) / clip.duration) * clip.duration
          + (s.elapsed + dt.toNat) % clip.duration
        = s.loop_index * clip.duration
          + (clip.duration * ((s.elapsed + dt.toNat) / clip.duration)
            + (s.elapsed + dt.toNat) % clip.duration) := by ring
      _ = s.loop_index * clip.duration + (s.elapsed + dt.toNat) := by rw [hdm]
      _ = s.loop_index * clip.duration + s.elapsed + dt.toNat := by ring
  · intro htr nm
    show ((runSegs clip.name clip.triggers clip.windows t.open_windows
        (segmentsAux (s.elapsed + dt.toNat) (s.loop_index * clip.duration)
          s.elapsed (s.elapsed + dt.toNat) clip.duration)).1).countP (isTrigEv nm) = _
    rw [runSegs_countP_trig]
    refine congrArg List.sum ?_
    apply List.map_congr_left
    intro tr htrm
    have htr2 := htr tr (List.mem_filter.mp htrm).1
    rw [segmentsAux_crossCount hD htr2.1 htr2.2 (s.elapsed + dt.toNat)
      (s.loop_index * clip.duration) s.elapsed (s.elapsed + dt.toNat) le_rfl
      (dvd_mul_left clip.duration s.loop_index) he]
    rw [show s.loop_index * clip.duration + (s.elapsed + dt.toNat)
        = s.loop_index * clip.duration + s.elapsed + dt.toNat by ring]

theorem occ_self (T D a : Nat) : occ T D a a = 0 := by
  unfold occ
  simp

theorem advanceRun_loop_spec (clip : ClipTimeline)
    (hmode : clip.loop_mode = .Loop) (hD : 0 < clip.duration) :
    ∀ (ds : List Int) (s : PlaybackState) (t : WindowTracker) (evs0 : List TimedEvent),
      s.playing = true → s.elapsed < clip.duration → (∀ d ∈ ds, 0 ≤ d) →
      (advanceRun clip (s, t, evs0) ds).1.playing = true ∧
      (advanceRun clip (s, t, evs0) ds).1.clip_ref = s.clip_ref ∧
      (advanceRun clip (s, t, evs0) ds).1.elapsed < clip.duration ∧
      (advanceRun clip (s, t, evs0) ds).1.loop_index * clip.duration
          + (advanceRun clip (s, t, evs0) ds).1.elapsed
        = s.loop_index * clip.duration + s.elapsed + (ds.map Int.toNat).sum ∧
      ((∀ tr ∈ clip.triggers, 0 < tr.time ∧ tr.time ≤ clip.duration) →
        ∀ nm, ((advanceRun clip (s, t, evs0) ds).2.2).countP (isTrigEv nm)
          = evs0.countP (isTrigEv nm) +
            ((clip.triggers.filter (fun tr => tr.name == nm)).map
              (fun tr => occ tr.time clip.duration
                (s.loop_index * clip.duration + s.elapsed)
                (s.loop_index * clip.duration + s.elapsed
                  + (ds.map Int.toNat).sum))).sum) := by
  intro ds
  induction ds with
  | nil =>
    intro s t evs0 hplay he _
    rw [advanceRun_nil]
    refine ⟨hplay, rfl, he, by simp, fun _ nm => ?_⟩
    simp [occ_self, sum_map_zero]
  | cons d ds ih =>
    intro s t evs0 hplay he hds
    have hd0 : ¬ d < 0 := by
      have := hds d (List.mem_cons_self d ds)
      omega
    obtain ⟨hp1, hc1, he1, habs1, hcnt1⟩ :=
      advanceStep_loop_spec s t clip d hmode hplay hD he hd0
    rw [advanceRun_cons]
    obtain ⟨hp2, hc2, he2, habs2, hcnt2⟩ := ih (advanceStep s t clip d).1
      (advanceStep s t clip d).2.1 (evs0 ++ (advanceStep s t clip d).2.2.1) hp1 he1
      (fun x hx => hds x (List.mem_cons_of_mem _ hx))
    refine ⟨hp2, by rw [hc2, hc1], he2, ?_, ?_⟩
    · rw [habs2, habs1]
      simp only [List.map_cons, List.sum_cons]
      ring
    · intro htr nm
      rw [hcnt2 htr nm, List.countP_append, hcnt1 htr nm]
      simp only [habs1, List.map_cons, List.sum_cons]
      rw [Nat.add_assoc]
      congr 1
      rw [← sum_map_add]
      refine congrArg List.sum ?_
      apply List.map_congr_left
      intro tr _
      rw [occ_add (by omega) (by omega)]
      congr 1
      ring

end AdvanceLemmas

/-- Claim C5: a negative `delta_time` is rejected as `InvalidDeltaTime` and the
failure is atomic and idempotent: the playback state, tracker (and hence
elapsed, playing, loop_index and the open-window set) are returned unchanged
and no events are emitted. -/
theorem negative_delta_rejected (s : PlaybackState) (t : WindowTracker)
    (clip : ClipTimeline) (dt : Int) (h : dt < 0) :
    advanceStep s t clip dt = (s, t, [], some AnimError.InvalidDeltaTime) ∧
    advance s t clip dt = .error AnimError.InvalidDeltaTime := by
  constructor
  · unfold advanceStep advance
    simp [h]
  · unfold advance
    simp [h]

/-- Witness for claim C5 at a concrete negative delta. -/
theorem negative_delta_rejected_witness :
    (-3 : Int) < 0 ∧
    advanceStep ⟨some "tongue", 250, true, 0⟩ ⟨["enable_hitbox"]⟩ demoClip (-3) =
      (⟨some "tongue", 250, true, 0⟩, ⟨["enable_hitbox"]⟩, [],
        some AnimError.InvalidDeltaTime) :=
  ⟨by decide,
   (negative_delta_rejected ⟨some "tongue", 250, true, 0⟩ ⟨["enable_hitbox"]⟩ demoClip (-3)
     (by decide)).1⟩

/-- Claim C9: in the demo's `handle_events`, every `AnimationTriggerEvent` read
is logged unconditionally, while an `AnimationWindowEvent` is logged iff its
phase is not `Tick`, i.e. exactly the `Begin` and `End` phases are logged. -/
theorem demo_event_filtering (log : List String) (ts : List AnimationTriggerEvent)
    (ws : List AnimationWindowEvent) :
    appendedLog log ts ws =
      (log ++ ts.map fmtTriggerMsg) ++
        (ws.filter (fun e => e.phase == WindowPhase.Begin || e.phase == WindowPhase.End)).map
          fmtWindowMsg := by
  unfold appendedLog
  congr 2
  apply List.filter_congr
  intro e _
  cases h : e.phase <;> simp [h]

/-- Claim C10: after `handle_events` the log holds the most recent messages in
arrival order, trimmed from the front to a capacity of 10: the result is the
suffix of the appended log obtained by dropping the excess over 10, and its
length is `min (appended length) 10` — in particular at most 10. -/
theorem demo_log_capacity (log : List String) (ts : List AnimationTriggerEvent)
    (ws : List AnimationWindowEvent) :
    handle_events log ts ws =
      (appendedLog log ts ws).drop ((appendedLog log ts ws).length - 10) ∧
    (handle_events log ts ws).length = min (appendedLog log ts ws).length 10 := by
  refine ⟨trimLog_eq _, ?_⟩
  rw [handle_events, trimLog_eq, List.length_drop]
  omega

/-- Claim C1 counterexample: a trigger at time 0 is skipped on every loop
pass — here a full pass elapses (`loop_index` goes from 0 to 1) yet the
trigger "a" at time 0 emits no event, contradicting "a trigger fires exactly
once per loop pass — never skipped". -/
theorem trigger_zero_skipped_cex :
    advance ⟨some "c", 0, true, 0⟩ ⟨[]⟩ ⟨"c", 2, .Loop, [⟨"a", 0⟩], []⟩ 2 =
      .ok (⟨some "c", 0, true, 1⟩, ⟨[]⟩, []) := by
  rfl

/-- Claim C1 (amended): for a playing `Loop` clip and triggers whose time lies
in `(0, duration]`, over any sequence of non-negative `delta_time` values the
number of events fired for a trigger name equals, for each trigger with that
name, the number of firing points `k*duration + T` inside the absolute
half-open interval `(position, position + sum of deltas]` — firing iff the
half-open interval (with loop wrap unrolled) contains the trigger time,
never skipped under small steps, never double-fired or missed under one
large step, and exactly once per loop pass.  (Triggers at time exactly 0 are
excluded: they never fire — see the counterexample.) -/
theorem trigger_crossing_exact (clip : ClipTimeline) (s : PlaybackState) (t : WindowTracker)
    (ds : List Int) (hmode : clip.loop_mode = .Loop) (hplay : s.playing = true)
    (hD : 0 < clip.duration) (he : s.elapsed < clip.duration)
    (hds : ∀ d ∈ ds, 0 ≤ d)
    (htr : ∀ tr ∈ clip.triggers, 0 < tr.time ∧ tr.time ≤ clip.duration) :
    ∀ nm, ((advanceRun clip (s, t, []) ds).2.2).countP (isTrigEv nm) =
      ((clip.triggers.filter (fun tr => tr.name == nm)).map
        (fun tr => occ tr.time clip.duration
          (s.loop_index * clip.duration + s.elapsed)
          (s.loop_index * clip.duration + s.elapsed + (ds.map Int.toNat).sum))).sum := by
  intro nm
  have h := (advanceRun_loop_spec clip hmode hD ds s t [] hplay he hds).2.2.2.2 htr nm
  simpa using h

/-- Witness for claim C1 at the demo's looping clip over three steps crossing
the trigger at 403 ms once. -/
theorem trigger_crossing_exact_witness :
    demoLoopClip.loop_mode = .Loop ∧ (0 : Nat) < demoLoopClip.duration ∧
    (∀ d ∈ ([300, 200, 600] : List Int), 0 ≤ d) ∧
    (∀ tr ∈ demoLoopClip.triggers, 0 < tr.time ∧ tr.time ≤ demoLoopClip.duration) ∧
    ∀ nm, ((advanceRun demoLoopClip (⟨some "tongue", 0, true, 0⟩, ⟨[]⟩, [])
        [300, 200, 600]).2.2).countP (isTrigEv nm) =
      ((demoLoopClip.triggers.filter (fun tr => tr.name == nm)).map
        (fun tr => occ tr.time demoLoopClip.duration
          (0 * demoLoopClip.duration + 0)
          (0 * demoLoopClip.duration + 0
            + (([300, 200, 600] : List Int).map Int.toNat).sum))).sum :=
  ⟨rfl, by decide, by decide, by decide,
    trigger_crossing_exact demoLoopClip ⟨some "tongue", 0, true, 0⟩ ⟨[]⟩ [300, 200, 600]
      rfl rfl (by decide) (by decide) (by decide) (by decide)⟩

/-- Claim C3: for a playing `Loop` clip, any sequence of non-negative deltas
summing to exactly `k * duration` returns `elapsed` to its starting value and
increases `loop_index` by exactly `k` (and the state is still playing). -/
theorem loop_sum_roundtrip (clip : ClipTimeline) (s : PlaybackState) (t : WindowTracker)
    (ds : List Int) (k : Nat) (hmode : clip.loop_mode = .Loop) (hplay : s.playing = true)
    (hD : 0 < clip.duration) (he : s.elapsed < clip.duration)
    (hds : ∀ d ∈ ds, 0 ≤ d) (hsum : (ds.map Int.toNat).sum = k * clip.duration) :
    (advanceRun clip (s, t, []) ds).1.elapsed = s.elapsed ∧
    (advanceRun clip (s, t, []) ds).1.loop_index = s.loop_index + k ∧
    (advanceRun clip (s, t, []) ds).1.playing = true := by
  obtain ⟨hp, _, he', habs, _⟩ := advanceRun_loop_spec clip hmode hD ds s t [] hplay he hds
  rw [hsum] at habs
  have habs2 : (advanceRun clip (s, t, []) ds).1.loop_index * clip.duration
      + (advanceRun clip (s, t, []) ds).1.elapsed
      = (s.loop_index + k) * clip.duration + s.elapsed := by
    rw [habs]
    ring
  have := mul_add_uniq hD he' he habs2
  exact ⟨this.2, this.1, hp⟩

/-- Witness for claim C3: two uneven steps summing to exactly one duration of
the demo's looping clip bring `elapsed` back to 250 and bump `loop_index`. -/
theorem loop_sum_roundtrip_witness :
    demoLoopClip.loop_mode = .Loop ∧ (0 : Nat) < demoLoopClip.duration ∧
    (250 : Nat) < demoLoopClip.duration ∧
    (∀ d ∈ ([999, 1] : List Int), 0 ≤ d) ∧
    (([999, 1] : List Int).map Int.toNat).sum = 1 * demoLoopClip.duration ∧
    (advanceRun demoLoopClip (⟨some "tongue", 250, true, 3⟩, ⟨[]⟩, []) [999, 1]).1.elapsed = 250 ∧
    (advanceRun demoLoopClip (⟨some "tongue", 250, true, 3⟩, ⟨[]⟩, []) [999, 1]).1.loop_index
      = 3 + 1 :=
  ⟨rfl, by decide, by decide, by decide, by decide,
    (loop_sum_roundtrip demoLoopClip ⟨some "tongue", 250, true, 3⟩ ⟨[]⟩ [999, 1] 1
      rfl rfl (by decide) (by decide) (by decide) (by decide)).1,
    (loop_sum_roundtrip demoLoopClip ⟨some "tongue", 250, true, 3⟩ ⟨[]⟩ [999, 1] 1
      rfl rfl (by decide) (by decide) (by decide) (by decide)).2.1⟩

/-- Claim C8: within one `advance` call the returned events are sorted by the
time of their crossing point, and at an equal crossing time trigger events
precede window events (the fixed tie-break of `evOrder`). -/
theorem advance_events_ordered (s : PlaybackState) (t : WindowTracker) (clip : ClipTimeline)
    (dt : Int) (s' : PlaybackState) (t' : WindowTracker) (evs : List TimedEvent)
    (hD : 0 < clip.duration) (he : s.elapsed < clip.duration)
    (hok : advance s t clip dt = .ok (s', t', evs)) :
    evs.Pairwise evOrder := by
  by_cases hneg : dt < 0
  · rw [advance_neg s t clip dt hneg] at hok
    exact Except.noConfusion hok
  · by_cases hplay : s.playing = true
    · cases hmode : clip.loop_mode with
      | Loop =>
        rw [advance_loop_eq s t clip dt hneg hplay hmode] at hok
        injection hok with htriple
        injection htriple with hs1 hrest
        injection hrest with ht1 hevs
        subst hevs
        have hchain := segmentsAux_chainOK hD (s.elapsed + dt.toNat)
          (s.loop_index * clip.duration) s.elapsed (s.elapsed + dt.toNat) le_rfl
          (Nat.le_add_right _ _) he
        have hs := (runSegs_sorted clip.name clip.triggers clip.windows clip.duration
          _ t.open_windows _ _ hchain).1
        exact List.Pairwise.imp keyLe_imp_evOrder hs
      | Once =>
        by_cases hlt : s.elapsed + dt.toNat < clip.duration
        · rw [advance_once_lt s t clip dt hneg hplay hmode hlt] at hok
          injection hok with htriple
          injection htriple with hs1 hrest
          injection hrest with ht1 hevs
          subst hevs
          have hchain : ChainOK clip.duration s.elapsed (s.elapsed + dt.toNat)
              [⟨s.loop_index * clip.duration, s.elapsed, s.elapsed + dt.toNat⟩] :=
            ⟨rfl, Nat.le_add_right _ _, le_of_lt hlt, rfl⟩
          have hs := (runSegs_sorted clip.name clip.triggers clip.windows clip.duration
            _ t.open_windows _ _ hchain).1
          exact List.Pairwise.imp keyLe_imp_evOrder hs
        · rw [advance_once_ge s t clip dt hneg hplay hmode hlt] at hok
          injection hok with htriple
          injection htriple with hs1 hrest
          injection hrest with ht1 hevs
          subst hevs
          have hchain : ChainOK clip.duration s.elapsed clip.duration
              [⟨s.loop_index * clip.duration, s.elapsed, clip.duration⟩] :=
            ⟨rfl, le_of_lt he, le_refl _, rfl⟩
          have hs := (runSegs_sorted clip.name clip.triggers clip.windows clip.duration
            _ t.open_windows _ _ hchain).1
          exact List.Pairwise.imp keyLe_imp_evOrder hs
    · have hplay' : s.playing = false := by
        cases hpv : s.playing
        · rfl
        · exact absurd hpv hplay
      rw [advance_stopped s t clip dt hneg hplay'] at hok
      injection hok with htriple
      injection htriple with hs1 hrest
      injection hrest with ht1 hevs
      subst hevs
      exact List.Pairwise.nil

/-- Witness for claim C8 on the demo clip played in one large step: the three
events (window Begin at 201 ms, trigger at 403 ms, window End at 701 ms) come
out in crossing-time order. -/
theorem advance_events_ordered_witness :
    (0 : Nat) < demoClip.duration ∧ (0 : Nat) < demoClip.duration ∧
    ([⟨201, .window "tongue" "enable_hitbox" .Begin⟩,
      ⟨403, .trigger "tongue" "show_blurb"⟩,
      ⟨701, .window "tongue" "enable_hitbox" .End⟩] : List TimedEvent).Pairwise evOrder :=
  ⟨by decide, by decide,
    advance_events_ordered ⟨some "tongue", 0, true, 0⟩ ⟨[]⟩ demoClip 1000 _ _ _
      (by decide) (by decide) rfl⟩

/-- Claim C2: an `advance` on a playing `Loop` clip whose raw new time reaches
the duration sets `elapsed` to `raw mod duration`, increases `loop_index` by
`floor(raw / duration)`, and processes every wrapped pass: the emitted counts
of trigger firings and of window Begin/End crossings equal the number of
crossing points in the whole absolute interval `(position, position + delta]`,
so no crossing of a skipped pass is omitted, for arbitrarily large deltas. -/
theorem loop_wrap_unrolled (clip : ClipTimeline) (s : PlaybackState) (t : WindowTracker)
    (dt : Int) (s' : PlaybackState) (t' : WindowTracker) (evs : List TimedEvent)
    (hmode : clip.loop_mode = .Loop) (hplay : s.playing = true)
    (hD : 0 < clip.duration) (he : s.elapsed < clip.duration)
    (hvw : ∀ w ∈ clip.windows, w.start < w.endTime ∧ w.endTime ≤ clip.duration)
    (hnd : (clip.windows.map Window.name).Nodup)
    (htrk : TrackerOK clip t.open_windows s.elapsed)
    (hdt : 0 ≤ dt) (hraw : clip.duration ≤ s.elapsed + dt.toNat)
    (hok : advance s t clip dt = .ok (s', t', evs)) :
    s'.elapsed = (s.elapsed + dt.toNat) % clip.duration ∧
    s'.loop_index = s.loop_index + (s.elapsed + dt.toNat) / clip.duration ∧
    ((∀ tr ∈ clip.triggers, 0 < tr.time ∧ tr.time ≤ clip.duration) →
      ∀ nm, evs.countP (isTrigEv nm) =
        ((clip.triggers.filter (fun tr => tr.name == nm)).map
          (fun tr => occ tr.time clip.duration
            (s.loop_index * clip.duration + s.elapsed)
            (s.loop_index * clip.duration + s.elapsed + dt.toNat))).sum) ∧
    (∀ w ∈ clip.windows, 0 < w.start →
      evs.countP (isWinEv w.name .Begin)
          = occ w.start clip.duration (s.loop_index * clip.duration + s.elapsed)
              (s.loop_index * clip.duration + s.elapsed + dt.toNat) ∧
      evs.countP (isWinEv w.name .End)
          = occ w.endTime clip.duration (s.loop_index * clip.duration + s.elapsed)
              (s.loop_index * clip.duration + s.elapsed + dt.toNat)) := by
  have hneg : ¬ dt < 0 := by omega
  rw [advance_loop_eq s t clip dt hneg hplay hmode] at hok
  injection hok with htriple
  injection htriple with hs1 hrest
  injection hrest with ht1 hevs
  subst hs1
  subst hevs
  obtain ⟨_, _, _, _, hcnt⟩ := advanceStep_loop_spec s t clip dt hmode hplay hD he hneg
  have hstep : advanceStep s t clip dt =
      ({ s with
          elapsed := (s.elapsed + dt.toNat) % clip.duration,
          loop_index := s.loop_index + (s.elapsed + dt.toNat) / clip.duration },
        ⟨(runSegs clip.name clip.triggers clip.windows t.open_windows
            (segmentsAux (s.elapsed + dt.toNat) (s.loop_index * clip.duration)
              s.elapsed (s.elapsed + dt.toNat) clip.duration)).2⟩,
        (runSegs clip.name clip.triggers clip.windows t.open_windows
          (segmentsAux (s.elapsed + dt.toNat) (s.loop_index * clip.duration)
            s.elapsed (s.elapsed + dt.toNat) clip.duration)).1, none) := by
    unfold advanceStep
    rw [advance_loop_eq s t clip dt hneg hplay hmode]
  rw [hstep] at hcnt
  have hchain := segmentsAux_chainOK hD (s.elapsed + dt.toNat)
    (s.loop_index * clip.duration) s.elapsed (s.elapsed + dt.toNat) le_rfl
    (Nat.le_add_right _ _) he
  obtain ⟨hodp, hpos, hsub⟩ := htrk
  have hwin := (runSegs_pos clip.name clip.triggers clip.windows clip.duration hnd
    (fun w hw => (hvw w hw).1) (fun w hw => (hvw w hw).2) _ t.open_windows
    s.elapsed ((s.elapsed + dt.toNat) % clip.duration) hchain hodp hpos).2.2.2
  refine ⟨rfl, rfl, fun htr nm => hcnt htr nm, ?_⟩
  intro w hw hws
  have hse := (hvw w hw).1
  have hsD := (hvw w hw).2
  obtain ⟨hcb, hce⟩ := hwin w hw
  constructor
  · rw [hcb, segmentsAux_crossCount hD hws (by omega)
      (s.elapsed + dt.toNat) (s.loop_index * clip.duration) s.elapsed
      (s.elapsed + dt.toNat) le_rfl (dvd_mul_left clip.duration s.loop_index) he]
    congr 1
    ring
  · rw [hce, if_pos hws, segmentsAux_crossCount hD (by omega) hsD
      (s.elapsed + dt.toNat) (s.loop_index * clip.duration) s.elapsed
      (s.elapsed + dt.toNat) le_rfl (dvd_mul_left clip.duration s.loop_index) he]
    congr 1
    ring

/-- Witness for claim C2: from elapsed 250 with the hitbox window open, one
1750 ms step wraps the looping demo clip twice: elapsed returns to 0 and
`loop_index` grows by 2. -/
theorem loop_wrap_unrolled_witness :
    demoLoopClip.loop_mode = LoopMode.Loop ∧
    TrackerOK demoLoopClip ["enable_hitbox"] 250 ∧
    demoLoopClip.duration ≤ 250 + (1750 : Int).toNat ∧
    (0 : Nat) = (250 + (1750 : Int).toNat) % demoLoopClip.duration ∧
    (2 : Nat) = 0 + (250 + (1750 : Int).toNat) / demoLoopClip.duration :=
  ⟨rfl, by decide, by decide,
    (loop_wrap_unrolled demoLoopClip ⟨some "tongue", 250, true, 0⟩ ⟨["enable_hitbox"]⟩ 1750
      _ _ _ rfl rfl (by decide) (by decide) (by decide) (by decide) (by decide)
      (by decide) (by decide) rfl).1,
    (loop_wrap_unrolled demoLoopClip ⟨some "tongue", 250, true, 0⟩ ⟨["enable_hitbox"]⟩ 1750
      _ _ _ rfl rfl (by decide) (by decide) (by decide) (by decide) (by decide)
      (by decide) (by decide) rfl).2.1⟩

section ForceCloseLemmas

theorem forcedEndEvents_countP (s : PlaybackState) (t : WindowTracker) (nm : String) :
    (forcedEndEvents s t).countP (isWinEv nm .End) = t.open_windows.count nm := by
  unfold forcedEndEvents
  rw [List.countP_map]
  apply countP_ext
  intro x
  show isWinEv nm WindowPhase.End (⟨s.elapsed, .window (currentAnim s) x .End⟩ : TimedEvent)
      = (x == nm)
  simp [isWinEv]

theorem forcedEndEvents_mem (s : PlaybackState) (t : WindowTracker) (nm : String)
    (h : nm ∈ t.open_windows) :
    (⟨s.elapsed, .window (currentAnim s) nm .End⟩ : TimedEvent) ∈ forcedEndEvents s t :=
  List.mem_map_of_mem _ h

theorem filter_beq_nodup (l : List String) (nm : String) (h : l.Nodup) :
    l.filter (fun x => x == nm) = if nm ∈ l then [nm] else [] := by
  induction l with
  | nil => simp
  | cons a l ih =>
    obtain ⟨hna, hnd⟩ := List.nodup_cons.mp h
    rw [List.filter_cons]
    by_cases ha : a = nm
    · subst ha
      have hnotin : a ∉ l := hna
      simp [ih hnd, hnotin]
    · have hb : (a == nm) = false := beq_eq_false_iff_ne.mpr ha
      simp only [hb, Bool.false_eq_true, if_false, ih hnd]
      have hmi : (nm ∈ a :: l) ↔ (nm ∈ l) := by
        rw [List.mem_cons]
        constructor
        · rintro (rfl | hx)
          · exact absurd rfl ha
          · exact hx
        · exact Or.inr
      rw [if_congr hmi rfl rfl]

theorem forcedEndEvents_filter_BE (s : PlaybackState) (t : WindowTracker) (nm : String)
    (h : t.open_windows.Nodup) :
    (forcedEndEvents s t).filter (isBE nm) =
      if nm ∈ t.open_windows
        then [⟨s.elapsed, .window (currentAnim s) nm .End⟩] else [] := by
  unfold forcedEndEvents
  rw [List.filter_map]
  have hpt : ∀ x ∈ t.open_windows,
      (isBE nm ∘ fun nm0 =>
        (⟨s.elapsed, .window (currentAnim s) nm0 .End⟩ : TimedEvent)) x = (x == nm) := by
    intro x _
    show isBE nm (⟨s.elapsed, .window (currentAnim s) x .End⟩ : TimedEvent) = (x == nm)
    simp [isBE, isWinEv]
  rw [List.filter_congr hpt, filter_beq_nodup t.open_windows nm h]
  by_cases hm : nm ∈ t.open_windows
  · rw [if_pos hm, if_pos hm]
    rfl
  · rw [if_neg hm, if_neg hm]
    rfl

theorem stop_lastBE (hist : List TimedEvent) (s : PlaybackState) (t : WindowTracker)
    (hnd : t.open_windows.Nodup)
    (hinv : ∀ nm, lastIsBegin hist nm = t.open_windows.contains nm) :
    ∀ nm, lastIsBegin (hist ++ forcedEndEvents s t) nm = false := by
  intro nm
  by_cases hm : nm ∈ t.open_windows
  · rw [lastIsBegin_append_single ((forcedEndEvents_filter_BE s t nm hnd).trans (if_pos hm))]
    simp [isWinEv]
  · rw [lastIsBegin_append_nil ((forcedEndEvents_filter_BE s t nm hnd).trans (if_neg hm))]
    rw [hinv nm]
    cases hc : t.open_windows.contains nm
    · rfl
    · exact absurd (List.elem_iff.mp hc) hm

theorem advance_lastBE_inv (s : PlaybackState) (t : WindowTracker) (c : ClipTimeline)
    (dt : Int) (s' : PlaybackState) (t' : WindowTracker) (evs : List TimedEvent)
    (hok : advance s t c dt = .ok (s', t', evs))
    (hndw : (c.windows.map Window.name).Nodup)
    (hvse : ∀ w ∈ c.windows, w.start < w.endTime)
    (hnd : t.open_windows.Nodup) (hist : List TimedEvent)
    (hlast : ∀ nm, lastIsBegin hist nm = t.open_windows.contains nm) :
    (∀ nm, lastIsBegin (hist ++ evs) nm = t'.open_windows.contains nm) ∧
    t'.open_windows.Nodup ∧ s'.clip_ref = s.clip_ref ∧
    (s'.playing = true → s.playing = true) := by
  by_cases hneg : dt < 0
  · rw [advance_neg s t c dt hneg] at hok
    exact Except.noConfusion hok
  · by_cases hplay : s.playing = true
    · cases hmode : c.loop_mode with
      | Loop =>
        rw [advance_loop_eq s t c dt hneg hplay hmode] at hok
        injection hok with htriple
        injection htriple with hs1 hrest
        injection hrest with ht1 hevs
        subst hs1
        subst ht1
        subst hevs
        have hrun := runSegs_lastBE c.name c.triggers c.windows hndw hvse
          (segmentsAux (s.elapsed + dt.toNat) (s.loop_index * c.duration) s.elapsed
            (s.elapsed + dt.toNat) c.duration) t.open_windows hist hnd hlast
        exact ⟨hrun.1, hrun.2, rfl, fun _ => hplay⟩
      | Once =>
        by_cases hlt : s.elapsed + dt.toNat < c.duration
        · rw [advance_once_lt s t c dt hneg hplay hmode hlt] at hok
          injection hok with htriple
          injection htriple with hs1 hrest
          injection hrest with ht1 hevs
          subst hs1
          subst ht1
          subst hevs
          have hrun := runSegs_lastBE c.name c.triggers c.windows hndw hvse
            [⟨s.loop_index * c.duration, s.elapsed, s.elapsed + dt.toNat⟩]
            t.open_windows hist hnd hlast
          exact ⟨hrun.1, hrun.2, rfl, fun _ => hplay⟩
        · rw [advance_once_ge s t c dt hneg hplay hmode hlt] at hok
          injection hok with htriple
          injection htriple with hs1 hrest
          injection hrest with ht1 hevs
          subst hs1
          subst ht1
          subst hevs
          have hrun := runSegs_lastBE c.name c.triggers c.windows hndw hvse
            [⟨s.loop_index * c.duration, s.elapsed, c.duration⟩]
            t.open_windows hist hnd hlast
          exact ⟨hrun.1, hrun.2, rfl, fun _ => hplay⟩
    · have hplay' : s.playing = false := by
        cases hpv : s.playing
        · rfl
        · exact absurd hpv hplay
      rw [advance_stopped s t c dt hneg hplay'] at hok
      injection hok with htriple
      injection htriple with hs1 hrest
      injection hrest with ht1 hevs
      subst hs1
      subst ht1
      subst hevs
      refine ⟨fun nm => ?_, hnd, rfl, fun h => h⟩
      rw [List.append_nil]
      exact hlast nm

theorem stepOp_preserves_inv (clips : List ClipTimeline)
    (hvc : ∀ c ∈ clips, ValidClip c) (es : EngineState) (op : Op)
    (hinv : EngInv clips es) : EngInv clips (stepOp clips es op) := by
  obtain ⟨hnd, hlast, hval⟩ := hinv
  cases op with
  | play nm0 =>
    rcases hc : lookupClip clips nm0 with _ | c
    · have hpc : playClip clips nm0 es.state es.tracker = .error .UnknownClip := by
        unfold playClip
        rw [hc]
      simp only [stepOp, hpc]
      exact ⟨hnd, hlast, hval⟩
    · have hpc : playClip clips nm0 es.state es.tracker =
          .ok (⟨some nm0, 0, true, 0⟩, ⟨[]⟩, forcedEndEvents es.state es.tracker) := by
        unfold playClip
        rw [hc]
      simp only [stepOp, hpc]
      refine ⟨List.nodup_nil, fun nm => ?_, fun _ => ⟨c, ?_, ?_⟩⟩
      · show lastIsBegin (es.hist ++ forcedEndEvents es.state es.tracker) nm
            = ([] : List String).contains nm
        rw [stop_lastBE es.hist es.state es.tracker hnd hlast nm]
        rfl
      · exact hc
      · exact hvc c (List.mem_of_find?_eq_some hc)
  | stop =>
    simp only [stepOp]
    refine ⟨List.nodup_nil, fun nm => ?_, fun hp => ?_⟩
    · show lastIsBegin (es.hist ++ forcedEndEvents es.state es.tracker) nm
          = ([] : List String).contains nm
      rw [stop_lastBE es.hist es.state es.tracker hnd hlast nm]
      rfl
    · exact absurd hp (by simp [stopPlayback])
  | advance dt =>
    rcases hc : activeClip clips es.state with _ | c
    · simp only [stepOp, hc]
      exact ⟨hnd, hlast, hval⟩
    · rcases hadv : advance es.state es.tracker c dt with err | r
      · simp only [stepOp, hc, hadv]
        exact ⟨hnd, hlast, hval⟩
      · simp only [stepOp, hc, hadv]
        by_cases hplay : es.state.playing = true
        · obtain ⟨c', hc', hvcc⟩ := hval hplay
          rw [hc] at hc'
          injection hc' with hcc
          subst hcc
          obtain ⟨hD, hvw, hndw, htrt⟩ := hvcc
          have hal := advance_lastBE_inv es.state es.tracker c dt r.1 r.2.1 r.2.2
            (by rw [hadv]) hndw (fun w hw => (hvw w hw).1) hnd es.hist hlast
          refine ⟨hal.2.1, hal.1, fun hp => ⟨c, ?_, hD, hvw, hndw, htrt⟩⟩
          show activeClip clips r.1 = some c
          unfold activeClip
          rw [hal.2.2.1]
          exact hc
        · have hplay' : es.state.playing = false := by
            cases hpv : es.state.playing
            · rfl
            · exact absurd hpv hplay
          have hneg' : ¬ dt < 0 := by
            by_contra hneg
            rw [advance_neg es.state es.tracker c dt hneg] at hadv
            exact Except.noConfusion hadv
          rw [advance_stopped es.state es.tracker c dt hneg' hplay'] at hadv
          injection hadv with htriple
          rw [← htriple]
          refine ⟨hnd, fun nm => ?_, hval⟩
          show lastIsBegin (es.hist ++ []) nm = es.tracker.open_windows.contains nm
          rw [List.append_nil]
          exact hlast nm

theorem runOps_inv (clips : List ClipTimeline) (hvc : ∀ c ∈ clips, ValidClip c) :
    ∀ (ops : List Op), EngInv clips (runOps clips ops) := by
  have hinit : EngInv clips initEngine := by
    refine ⟨List.nodup_nil, fun nm => rfl, fun hp => ?_⟩
    exact absurd hp (by simp [initEngine])
  intro ops
  show EngInv clips (ops.foldl (stepOp clips) initEngine)
  have key : ∀ (ops : List Op) (es : EngineState), EngInv clips es →
      EngInv clips (ops.foldl (stepOp clips) es) := by
    intro ops
    induction ops with
    | nil => intro es h; exact h
    | cons op ops ih =>
      intro es h
      exact ih _ (stepOp_preserves_inv clips hvc es op h)
  exact key ops initEngine hinit

end ForceCloseLemmas

/-- Claim C6: `stop()` and `play()` (a clip switch, including a restart of the
same clip) emit a synthetic End event for every open window — one End per
occurrence of the name in the open set, carrying the old animation — and leave
the tracker's open-window set empty; no window is abandoned silently. -/
theorem force_close_open_windows :
    (∀ (s : PlaybackState) (t : WindowTracker),
      (stopPlayback s t).1.playing = false ∧
      (stopPlayback s t).1.elapsed = s.elapsed ∧
      (stopPlayback s t).2.1.open_windows = [] ∧
      (∀ nm, ((stopPlayback s t).2.2).countP (isWinEv nm .End) = t.open_windows.count nm) ∧
      (∀ nm ∈ t.open_windows,
        (⟨s.elapsed, .window (currentAnim s) nm .End⟩ : TimedEvent)
          ∈ (stopPlayback s t).2.2)) ∧
    (∀ (clips : List ClipTimeline) (nm0 : String) (s : PlaybackState) (t : WindowTracker)
      (s' : PlaybackState) (t' : WindowTracker) (evs : List TimedEvent),
      playClip clips nm0 s t = .ok (s', t', evs) →
      s'.playing = true ∧ s'.elapsed = 0 ∧ t'.open_windows = [] ∧
      (∀ nm, evs.countP (isWinEv nm .End) = t.open_windows.count nm) ∧
      (∀ nm ∈ t.open_windows,
        (⟨s.elapsed, .window (currentAnim s) nm .End⟩ : TimedEvent) ∈ evs)) := by
  constructor
  · intro s t
    exact ⟨rfl, rfl, rfl, fun nm => forcedEndEvents_countP s t nm,
      fun nm h => forcedEndEvents_mem s t nm h⟩
  · intro clips nm0 s t s' t' evs hok
    unfold playClip at hok
    rcases hc : lookupClip clips nm0 with _ | c
    · rw [hc] at hok
      exact Except.noConfusion hok
    · rw [hc] at hok
      injection hok with htriple
      injection htriple with hs1 hrest
      injection hrest with ht1 hevs
      subst hs1
      subst ht1
      subst hevs
      exact ⟨rfl, rfl, rfl, fun nm => forcedEndEvents_countP s t nm,
        fun nm h => forcedEndEvents_mem s t nm h⟩

/-- Witness for claim C6: stopping (and restarting) with the hitbox window
open emits its synthetic End and empties the open set. -/
theorem force_close_open_windows_witness :
    (stopPlayback ⟨some "tongue", 500, true, 0⟩ ⟨["enable_hitbox"]⟩).2.1.open_windows = [] ∧
    ((⟨500, .window "tongue" "enable_hitbox" .End⟩ : TimedEvent)
      ∈ (stopPlayback ⟨some "tongue", 500, true, 0⟩ ⟨["enable_hitbox"]⟩).2.2) ∧
    (⟨[]⟩ : WindowTracker).open_windows = [] ∧
    ((⟨500, .window "tongue" "enable_hitbox" .End⟩ : TimedEvent)
      ∈ forcedEndEvents ⟨some "tongue", 500, true, 0⟩ ⟨["enable_hitbox"]⟩) :=
  ⟨(force_close_open_windows.1 ⟨some "tongue", 500, true, 0⟩ ⟨["enable_hitbox"]⟩).2.2.1,
   (force_close_open_windows.1 ⟨some "tongue", 500, true, 0⟩
     ⟨["enable_hitbox"]⟩).2.2.2.2 "enable_hitbox" (by decide),
   (force_close_open_windows.2 [demoClip] "tongue" ⟨some "tongue", 500, true, 0⟩
     ⟨["enable_hitbox"]⟩ _ _ _ rfl).2.2.1,
   (force_close_open_windows.2 [demoClip] "tongue" ⟨some "tongue", 500, true, 0⟩
     ⟨["enable_hitbox"]⟩ _ _ _ rfl).2.2.2.2 "enable_hitbox" (by decide)⟩

/-- Claim C7: invariant preserved by every operation sequence: a window name
is in the tracker's open set iff the emitted history contains a Begin for it
with no matching End since (the most recent Begin/End event for that name is
a Begin). -/
theorem open_windows_unmatched_begin (clips : List ClipTimeline) (ops : List Op)
    (hvc : ∀ c ∈ clips, ValidClip c) :
    ∀ nm, nm ∈ (runOps clips ops).tracker.open_windows ↔
      lastIsBegin (runOps clips ops).hist nm = true := by
  intro nm
  obtain ⟨_, hlast, _⟩ := runOps_inv clips hvc ops
  rw [hlast nm]
  exact List.elem_iff.symm

/-- Witness for claim C7: after playing the demo clip and advancing into the
hitbox window, the window is open and its last Begin is unmatched; a stop
closes it again. -/
theorem open_windows_unmatched_begin_witness :
    (∀ c ∈ [demoClip], ValidClip c) ∧
    (∀ nm, nm ∈ (runOps [demoClip] [.play "tongue", .advance 300]).tracker.open_windows ↔
      lastIsBegin (runOps [demoClip] [.play "tongue", .advance 300]).hist nm = true) ∧
    (∀ nm, nm ∈ (runOps [demoClip] [.play "tongue", .advance 300, .stop]).tracker.open_windows ↔
      lastIsBegin (runOps [demoClip] [.play "tongue", .advance 300, .stop]).hist nm = true) :=
  ⟨by decide,
   open_windows_unmatched_begin [demoClip] [.play "tongue", .advance 300] (by decide),
   open_windows_unmatched_begin [demoClip] [.play "tongue", .advance 300, .stop] (by decide)⟩

section OnceLemmas

theorem trigCnt_eq_sum (ts : List Trigger) (nm : String) (a b : Nat) :
    ((ts.filter (fun tr => tr.name == nm)).map
      (fun tr => if a < tr.time ∧ tr.time ≤ b then 1 else 0)).sum = trigCnt ts nm a b := by
  rw [sum_map_ite_count]
  unfold trigCnt
  apply countP_ext
  intro x
  by_cases h1 : a < x.time <;> by_cases h2 : x.time ≤ b <;> simp [h1, h2]

theorem trigCnt_self (ts : List Trigger) (nm : String) (a : Nat) :
    trigCnt ts nm a a = 0 := by
  unfold trigCnt
  rw [List.countP_eq_zero]
  intro x _
  simp only [Bool.and_eq_true, decide_eq_true_eq, not_and]
  omega

theorem trigCnt_add (ts : List Trigger) (nm : String) {a b c' : Nat}
    (hab : a ≤ b) (hbc : b ≤ c') :
    trigCnt ts nm a b + trigCnt ts nm b c' = trigCnt ts nm a c' := by
  unfold trigCnt
  have hsplit : ∀ x : Trigger,
      (decide (a < x.time) && decide (x.time ≤ c'))
        = ((decide (a < x.time) && decide (x.time ≤ b))
            || (decide (b < x.time) && decide (x.time ≤ c'))) := by
    intro x
    by_cases h1 : a < x.time <;> by_cases h2 : x.time ≤ b <;>
      by_cases h3 : b < x.time <;> by_cases h4 : x.time ≤ c' <;>
        simp [h1, h2, h3, h4] <;> omega
  have hdisj : ∀ x : Trigger,
      ¬((decide (a < x.time) && decide (x.time ≤ b)) = true
        ∧ (decide (b < x.time) && decide (x.time ≤ c')) = true) := by
    intro x hx
    simp only [Bool.and_eq_true, decide_eq_true_eq] at hx
    omega
  exact (countP_split _ _ _ _ hsplit hdisj).symm

theorem lookupClip_self (clip : ClipTimeline) : lookupClip [clip] clip.name = some clip := by
  unfold lookupClip
  simp [List.find?]

theorem onceSeg_spec (c : ClipTimeline) (openL : List String) (base a b : Nat)
    (hnd : (c.windows.map Window.name).Nodup)
    (hvse : ∀ w ∈ c.windows, w.start < w.endTime)
    (hodp : openL.Nodup) (hpos : PosOpen c.windows openL a)
    (hsub : ∀ nm ∈ openL, ∃ w ∈ c.windows, w.name = nm) (hab : a ≤ b) :
    TrackerOK c (runSegs c.name c.triggers c.windows openL [⟨base, a, b⟩]).2 b ∧
    (∀ nm, ((runSegs c.name c.triggers c.windows openL [⟨base, a, b⟩]).1).countP
        (isTrigEv nm) = trigCnt c.triggers nm a b) ∧
    (∀ w ∈ c.windows,
      ((runSegs c.name c.triggers c.windows openL [⟨base, a, b⟩]).1).countP
          (isWinEv w.name .Begin)
        = (if a < w.start ∧ w.start ≤ b then 1 else 0) ∧
      ((runSegs c.name c.triggers c.windows openL [⟨base, a, b⟩]).1).countP
          (isWinEv w.name .End)
        = (if 0 < w.start ∧ a < w.endTime ∧ w.endTime ≤ b then 1 else 0)) := by
  have hstep := segStep_pos c.name c.triggers c.windows openL base a b hnd hodp hvse hab hpos
  have hcnt : ∀ (p : TimedEvent → Bool),
      ((runSegs c.name c.triggers c.windows openL [⟨base, a, b⟩]).1).countP p
        = ((segEvents c.name c.triggers c.windows openL base a b).1).countP p := by
    intro p
    rw [runSegs_cons_fst]
    show (_ ++ ([] : List TimedEvent)).countP p = _
    rw [List.countP_append, List.countP_nil, Nat.add_zero]
  refine ⟨⟨hstep.2.1, hstep.1, ?_⟩, ?_, ?_⟩
  · intro nm hnm
    rcases hstep.2.2.1 nm hnm with h1 | h1
    · exact hsub nm h1
    · obtain ⟨w, hw, heq⟩ := List.mem_map.mp h1
      exact ⟨w, hw, heq⟩
  · intro nm
    rw [runSegs_countP_trig]
    rw [show ((c.triggers.filter (fun tr => tr.name == nm)).map
        (fun tr => crossCount tr.time [⟨base, a, b⟩])) =
        ((c.triggers.filter (fun tr => tr.name == nm)).map
          (fun tr => if a < tr.time ∧ tr.time ≤ b then 1 else 0)) from
      List.map_congr_left (fun tr _ => by simp [crossCount])]
    exact trigCnt_eq_sum c.triggers nm a b
  · intro w hw
    obtain ⟨hcb, hce⟩ := hstep.2.2.2 w hw
    exact ⟨(hcnt _).trans hcb, (hcnt _).trans hce⟩

theorem advanceStep_once_spec (s : PlaybackState) (t : WindowTracker) (c : ClipTimeline)
    (dt : Int) (hmode : c.loop_mode = .Once) (hplay : s.playing = true)
    (hD : 0 < c.duration) (he : s.elapsed < c.duration) (hneg : ¬ dt < 0)
    (hnd : (c.windows.map Window.name).Nodup)
    (hvse : ∀ w ∈ c.windows, w.start < w.endTime)
    (htrk : TrackerOK c t.open_windows s.elapsed) :
    (advanceStep s t c dt).1.clip_ref = s.clip_ref ∧
    (advanceStep s t c dt).1.loop_index = s.loop_index ∧
    (advanceStep s t c dt).1.elapsed = min (s.elapsed + dt.toNat) c.duration ∧
    ((advanceStep s t c dt).1.playing = true ↔ s.elapsed + dt.toNat < c.duration) ∧
    TrackerOK c (advanceStep s t c dt).2.1.open_windows
      (min (s.elapsed + dt.toNat) c.duration) ∧
    (∀ nm, ((advanceStep s t c dt).2.2.1).countP (isTrigEv nm)
        = trigCnt c.triggers nm s.elapsed (min (s.elapsed + dt.toNat) c.duration)) ∧
    (∀ w ∈ c.windows,
      ((advanceStep s t c dt).2.2.1).countP (isWinEv w.name .Begin)
        = (if s.elapsed < w.start ∧ w.start ≤ min (s.elapsed + dt.toNat) c.duration
            then 1 else 0) ∧
      ((advanceStep s t c dt).2.2.1).countP (isWinEv w.name .End)
        = (if 0 < w.start ∧ s.elapsed < w.endTime
            ∧ w.endTime ≤ min (s.elapsed + dt.toNat) c.duration then 1 else 0)) := by
  obtain ⟨hodp, hpos, hsub⟩ := htrk
  rcases Nat.lt_or_ge (s.elapsed + dt.toNat) c.duration with hlt | hge
  · have hmin : min (s.elapsed + dt.toNat) c.duration = s.elapsed + dt.toNat :=
      Nat.min_eq_left (le_of_lt hlt)
    have hstepEq : advanceStep s t c dt = ({ s with elapsed := s.elapsed + dt.toNat },
        ⟨(runSegs c.name c.triggers c.windows t.open_windows
            [⟨s.loop_index * c.duration, s.elapsed, s.elapsed + dt.toNat⟩]).2⟩,
        (runSegs c.name c.triggers c.windows t.open_windows
          [⟨s.loop_index * c.duration, s.elapsed, s.elapsed + dt.toNat⟩]).1, none) := by
      unfold advanceStep
      rw [advance_once_lt s t c dt hneg hplay hmode hlt]
    have hseg := onceSeg_spec c t.open_windows (s.loop_index * c.duration) s.elapsed
      (s.elapsed + dt.toNat) hnd hvse hodp hpos hsub (Nat.le_add_right _ _)
    rw [hstepEq, hmin]
    exact ⟨rfl, rfl, rfl, ⟨fun _ => hlt, fun _ => hplay⟩, hseg.1, hseg.2.1, hseg.2.2⟩
  · have hmin : min (s.elapsed + dt.toNat) c.duration = c.duration :=
      Nat.min_eq_right hge
    have hstepEq : advanceStep s t c dt =
        ({ s with elapsed := c.duration, playing := false },
        ⟨(runSegs c.name c.triggers c.windows t.open_windows
            [⟨s.loop_index * c.duration, s.elapsed, c.duration⟩]).2⟩,
        (runSegs c.name c.triggers c.windows t.open_windows
          [⟨s.loop_index * c.duration, s.elapsed, c.duration⟩]).1, none) := by
      unfold advanceStep
      rw [advance_once_ge s t c dt hneg hplay hmode (by omega)]
    have hseg := onceSeg_spec c t.open_windows (s.loop_index * c.duration) s.elapsed
      c.duration hnd hvse hodp hpos hsub (le_of_lt he)
    rw [hstepEq, hmin]
    refine ⟨rfl, rfl, rfl, ?_, hseg.1, hseg.2.1, hseg.2.2⟩
    constructor
    · intro hfalse
      exact absurd hfalse (by simp)
    · intro hlt2
      omega

theorem advance_ok_of_nonneg (s : PlaybackState) (t : WindowTracker) (clip : ClipTimeline)
    (dt : Int) (hdt : ¬ dt < 0) : ∃ r, advance s t clip dt = .ok r := by
  by_cases hplay : s.playing = false
  · exact ⟨_, advance_stopped s t clip dt hdt hplay⟩
  · have hp : s.playing = true := by
      cases h : s.playing
      · exact absurd h hplay
      · rfl
    cases hmode : clip.loop_mode with
    | Once =>
      by_cases hlt : s.elapsed + dt.toNat < clip.duration
      · exact ⟨_, advance_once_lt s t clip dt hdt hp hmode hlt⟩
      · exact ⟨_, advance_once_ge s t clip dt hdt hp hmode hlt⟩
    | Loop => exact ⟨_, advance_loop_eq s t clip dt hdt hp hmode⟩

theorem stepOp_advance_eq (clips : List ClipTimeline) (es : EngineState) (c : ClipTimeline)
    (dt : Int) (hc : activeClip clips es.state = some c) (hdt : ¬ dt < 0) :
    stepOp clips es (.advance dt)
      = ⟨(advanceStep es.state es.tracker c dt).1,
         (advanceStep es.state es.tracker c dt).2.1,
         es.hist ++ (advanceStep es.state es.tracker c dt).2.2.1⟩ := by
  obtain ⟨r, hr⟩ := advance_ok_of_nonneg es.state es.tracker c dt hdt
  simp only [stepOp, advanceStep, hc, hr]

theorem once_advances_inv (clip : ClipTimeline) (hmode : clip.loop_mode = .Once)
    (hD : 0 < clip.duration)
    (hnd : (clip.windows.map Window.name).Nodup)
    (hvse : ∀ w ∈ clip.windows, w.start < w.endTime) :
    ∀ (ds : List Int) (es : EngineState) (cur : Nat),
      (∀ d ∈ ds, ¬ d < 0) →
      es.state.clip_ref = some clip.name →
      es.state.elapsed = cur →
      cur ≤ clip.duration →
      (es.state.playing = true ↔ cur < clip.duration) →
      (es.state.playing = true → TrackerOK clip es.tracker.open_windows cur) →
      ((ds.map Op.advance).foldl (stepOp [clip]) es).state.clip_ref = some clip.name ∧
      ((ds.map Op.advance).foldl (stepOp [clip]) es).state.elapsed
        = min (cur + (ds.map Int.toNat).sum) clip.duration ∧
      (((ds.map Op.advance).foldl (stepOp [clip]) es).state.playing = true
        ↔ cur + (ds.map Int.toNat).sum < clip.duration) ∧
      (∀ nm, (((ds.map Op.advance).foldl (stepOp [clip]) es).hist).countP (isTrigEv nm)
        = es.hist.countP (isTrigEv nm)
          + trigCnt clip.triggers nm cur (min (cur + (ds.map Int.toNat).sum) clip.duration)) ∧
      (∀ w ∈ clip.windows,
        (((ds.map Op.advance).foldl (stepOp [clip]) es).hist).countP (isWinEv w.name .Begin)
          = es.hist.countP (isWinEv w.name .Begin)
            + (if cur < w.start ∧ w.start ≤ min (cur + (ds.map Int.toNat).sum) clip.duration
                then 1 else 0) ∧
        (((ds.map Op.advance).foldl (stepOp [clip]) es).hist).countP (isWinEv w.name .End)
          = es.hist.countP (isWinEv w.name .End)
            + (if 0 < w.start ∧ cur < w.endTime
                ∧ w.endTime ≤ min (cur + (ds.map Int.toNat).sum) clip.duration
                then 1 else 0)) := by
  intro ds
  induction ds with
  | nil =>
    intro es cur hds href helap hle hplay htrk
    subst helap
    simp only [List.map_nil, List.foldl_nil, List.sum_nil, Nat.add_zero]
    simp only [Nat.min_eq_left hle]
    refine ⟨href, trivial, hplay, ?_, ?_⟩
    · intro nm
      rw [trigCnt_self, Nat.add_zero]
    · intro w hw
      constructor
      · rw [if_neg (by omega), Nat.add_zero]
      · rw [if_neg (by omega), Nat.add_zero]
  | cons d ds ih =>
    intro es cur hds href helap hle hplay htrk
    subst helap
    have hd0 : ¬ d < 0 := hds d (List.mem_cons_self d ds)
    have hc : activeClip [clip] es.state = some clip := by
      unfold activeClip
      rw [href]
      exact lookupClip_self clip
    simp only [List.map_cons, List.foldl_cons, List.sum_cons]
    rw [stepOp_advance_eq [clip] es clip d hc hd0]
    by_cases hp : es.state.playing = true
    · have hcur : es.state.elapsed < clip.duration := hplay.mp hp
      have hspec := advanceStep_once_spec es.state es.tracker clip d
        hmode hp hD hcur hd0 hnd hvse (htrk hp)
      set cur1 := min (es.state.elapsed + d.toNat) clip.duration with hcur1
      obtain ⟨href', hloop', helap', hplay', htrk', htrig', hwin'⟩ := hspec
      have hih := ih ⟨(advanceStep es.state es.tracker clip d).1,
          (advanceStep es.state es.tracker clip d).2.1,
          es.hist ++ (advanceStep es.state es.tracker clip d).2.2.1⟩ cur1
        (fun d' hd' => hds d' (List.mem_cons_of_mem d hd'))
        (by dsimp only; rw [href', href])
        (by dsimp only; exact helap')
        (Nat.min_le_right _ _)
        (by dsimp only
            constructor
            · intro hpp
              have := hplay'.mp hpp
              omega
            · intro hlt
              exact hplay'.mpr (by omega))
        (fun _ => htrk')
      obtain ⟨hih1, hih2, hih3, hih4, hih5⟩ := hih
      dsimp only at hih2 hih3 hih4 hih5
      refine ⟨hih1, ?_, ?_, ?_, ?_⟩
      · rw [hih2]
        omega
      · constructor
        · intro hpp
          have := hih3.mp hpp
          omega
        · intro hlt
          exact hih3.mpr (by omega)
      · intro nm
        rw [hih4 nm, List.countP_append, htrig' nm]
        have hfin : min (cur1 + (ds.map Int.toNat).sum) clip.duration
            = min (es.state.elapsed + (d.toNat + (ds.map Int.toNat).sum)) clip.duration := by
          omega
        rw [hfin, Nat.add_assoc,
          trigCnt_add clip.triggers nm (by omega) (by omega)]
      · intro w hw
        obtain ⟨hB, hE⟩ := hih5 w hw
        obtain ⟨hB', hE'⟩ := hwin' w hw
        constructor
        · rw [hB, List.countP_append, hB', Nat.add_assoc]
          congr 1
          split_ifs <;> omega
        · rw [hE, List.countP_append, hE', Nat.add_assoc]
          congr 1
          split_ifs <;> omega
    · have hpf : es.state.playing = false := by
        cases h : es.state.playing
        · rfl
        · exact absurd h hp
      have hnc : ¬ es.state.elapsed < clip.duration := fun hlt => hp (hplay.mpr hlt)
      have hstopEq : advanceStep es.state es.tracker clip d
          = (es.state, es.tracker, [], none) := by
        unfold advanceStep
        rw [advance_stopped es.state es.tracker clip d hd0 hpf]
      rw [hstopEq]
      have hih := ih ⟨es.state, es.tracker, es.hist ++ []⟩ es.state.elapsed
        (fun d' hd' => hds d' (List.mem_cons_of_mem d hd'))
        href rfl hle hplay
        (fun hpp => absurd hpp hp)
      obtain ⟨hih1, hih2, hih3, hih4, hih5⟩ := hih
      dsimp only at hih2 hih3 hih4 hih5
      have hmin1 : min (es.state.elapsed + (ds.map Int.toNat).sum) clip.duration
          = es.state.elapsed := by omega
      have hmin2 : min (es.state.elapsed + (d.toNat + (ds.map Int.toNat).sum)) clip.duration
          = es.state.elapsed := by omega
      refine ⟨hih1, ?_, ?_, ?_, ?_⟩
      · rw [hih2]
        omega
      · constructor
        · intro hpp
          have := hih3.mp hpp
          omega
        · intro hlt
          exact hih3.mpr (by omega)
      · intro nm
        rw [hih4 nm, List.countP_append, List.countP_nil, Nat.add_zero,
          hmin1, hmin2, trigCnt_self]
      · intro w hw
        obtain ⟨hB, hE⟩ := hih5 w hw
        rw [List.countP_append, List.countP_nil, Nat.add_zero] at hB hE
        constructor
        · rw [hB]
          simp only [hmin1, hmin2]
        · rw [hE]
          simp only [hmin1, hmin2]

end OnceLemmas

/-- C4 (counterexample): the claim as stated fails for a `Once` clip holding a
trigger at time `0` (allowed by the data model, `time ∈ [0, duration]`). Playing
the clip `"c"` (duration 2, one trigger `"a"` at time 0) and advancing by the
full duration ends Stopped and clamped at the duration, yet the history holds
zero events for the trigger instead of the claimed exactly one: under the
half-open `(old, new]` crossing rule a time-0 point is never crossed from the
start position 0. -/
theorem once_trigger_zero_missed_cex :
    (runOps [⟨"c", 2, .Once, [⟨"a", 0⟩], []⟩] [.play "c", .advance 2]).state.playing = false ∧
    (runOps [⟨"c", 2, .Once, [⟨"a", 0⟩], []⟩] [.play "c", .advance 2]).state.elapsed = 2 ∧
    ((runOps [⟨"c", 2, .Once, [⟨"a", 0⟩], []⟩] [.play "c", .advance 2]).hist).countP
      (isTrigEv "a") = 0 := by
  decide

/-- C4 (amended): for every `Once`-mode clip with positive duration, distinct
window names, windows satisfying `0 < start < end ≤ duration`, and triggers at
times in `(0, duration]`, playing the clip and then advancing by any sequence
of non-negative deltas totalling at least the duration clamps the final
position at the duration, ends with `playing = false` (Stopped), and the
emitted history holds exactly one event per trigger name occurrence and
exactly one `Begin` and one `End` per window. (The original claim is corrected
by the positivity restrictions: a trigger at time exactly `0`, or a window
starting at `0`, is never crossed from the start position — see the
counterexample.) -/
theorem once_roundtrip (clip : ClipTimeline) (ds : List Int)
    (hmode : clip.loop_mode = .Once) (hD : 0 < clip.duration)
    (hnd : (clip.windows.map Window.name).Nodup)
    (hws : ∀ w ∈ clip.windows, 0 < w.start ∧ w.start < w.endTime ∧ w.endTime ≤ clip.duration)
    (htrig : ∀ tr ∈ clip.triggers, 0 < tr.time ∧ tr.time ≤ clip.duration)
    (hds : ∀ d ∈ ds, ¬ d < 0)
    (hsum : clip.duration ≤ (ds.map Int.toNat).sum) :
    (runOps [clip] (.play clip.name :: ds.map .advance)).state.playing = false ∧
    (runOps [clip] (.play clip.name :: ds.map .advance)).state.elapsed = clip.duration ∧
    (∀ nm, ((runOps [clip] (.play clip.name :: ds.map .advance)).hist).countP (isTrigEv nm)
        = (clip.triggers.filter (fun tr => tr.name == nm)).length) ∧
    (∀ w ∈ clip.windows,
      ((runOps [clip] (.play clip.name :: ds.map .advance)).hist).countP
          (isWinEv w.name .Begin) = 1 ∧
      ((runOps [clip] (.play clip.name :: ds.map .advance)).hist).countP
          (isWinEv w.name .End) = 1) := by
  have hplayEq : playClip [clip] clip.name initEngine.state initEngine.tracker
      = .ok (⟨some clip.name, 0, true, 0⟩, ⟨[]⟩, []) := by
    unfold playClip
    rw [lookupClip_self]
    rfl
  have hstep1 : stepOp [clip] initEngine (.play clip.name)
      = ⟨⟨some clip.name, 0, true, 0⟩, ⟨[]⟩, []⟩ := by
    simp only [stepOp, hplayEq]
    rfl
  have hrun : runOps [clip] (.play clip.name :: ds.map .advance)
      = (ds.map Op.advance).foldl (stepOp [clip])
          ⟨⟨some clip.name, 0, true, 0⟩, ⟨[]⟩, []⟩ := by
    unfold runOps
    rw [List.foldl_cons, hstep1]
  have hinv := once_advances_inv clip hmode hD hnd
    (fun w hw' => (hws w hw').2.1)
    ds ⟨⟨some clip.name, 0, true, 0⟩, ⟨[]⟩, []⟩ 0 hds rfl rfl (Nat.zero_le _)
    ⟨fun _ => hD, fun _ => rfl⟩
    (fun _ => ⟨List.nodup_nil,
      fun w _ => ⟨fun h => absurd h (List.not_mem_nil _), fun h => absurd h (by omega)⟩,
      fun nm h => absurd h (List.not_mem_nil nm)⟩)
  obtain ⟨h1, h2, h3, h4, h5⟩ := hinv
  dsimp only at h2 h3 h4 h5
  have hminD : min ((ds.map Int.toNat).sum) clip.duration = clip.duration := by omega
  simp only [Nat.zero_add, hminD, List.countP_nil] at h2 h4 h5
  refine ⟨?_, ?_, ?_, ?_⟩
  · rw [hrun]
    cases hpl : ((ds.map Op.advance).foldl (stepOp [clip])
        ⟨⟨some clip.name, 0, true, 0⟩, ⟨[]⟩, []⟩).state.playing
    · rfl
    · exact absurd (h3.mp hpl) (by omega)
  · rw [hrun, h2]
  · intro nm
    rw [hrun, h4 nm]
    unfold trigCnt
    apply List.countP_eq_length.mpr
    intro tr htr
    simp only [Bool.and_eq_true, decide_eq_true_eq]
    exact htrig tr (List.mem_of_mem_filter htr)
  · intro w hw
    have hb := (h5 w hw).1
    have he := (h5 w hw).2
    have hws' := hws w hw
    constructor
    · rw [hrun, hb, if_pos ⟨hws'.1, by omega⟩]
    · rw [hrun, he, if_pos ⟨hws'.1, by omega, hws'.2.2⟩]

theorem once_roundtrip_witness :
    demoClip.loop_mode = .Once ∧ 0 < demoClip.duration ∧
    (demoClip.windows.map Window.name).Nodup ∧
    (∀ w ∈ demoClip.windows,
      0 < w.start ∧ w.start < w.endTime ∧ w.endTime ≤ demoClip.duration) ∧
    (∀ tr ∈ demoClip.triggers, 0 < tr.time ∧ tr.time ≤ demoClip.duration) ∧
    (∀ d ∈ [(600 : Int), 600], ¬ d < 0) ∧
    demoClip.duration ≤ (([(600 : Int), 600]).map Int.toNat).sum ∧
    (runOps [demoClip] (.play demoClip.name :: ([(600 : Int), 600]).map .advance)).state.playing
      = false ∧
    (runOps [demoClip] (.play demoClip.name :: ([(600 : Int), 600]).map .advance)).state.elapsed
      = demoClip.duration ∧
    ((runOps [demoClip]
        (.play demoClip.name :: ([(600 : Int), 600]).map .advance)).hist).countP
      (isTrigEv "show_blurb") = 1 ∧
    (∀ w ∈ demoClip.windows,
      ((runOps [demoClip]
          (.play demoClip.name :: ([(600 : Int), 600]).map .advance)).hist).countP
        (isWinEv w.name .Begin) = 1 ∧
      ((runOps [demoClip]
          (.play demoClip.name :: ([(600 : Int), 600]).map .advance)).hist).countP
        (isWinEv w.name .End) = 1) := by
  have h := once_roundtrip demoClip [600, 600] (by decide) (by decide) (by decide)
    (by decide) (by decide) (by decide) (by decide)
  exact ⟨by decide, by decide, by decide, by decide, by decide, by decide, by decide,
    h.1, h.2.1, by rw [h.2.2.1 "show_blurb"]; decide, h.2.2.2⟩

end BevyMapAnimation
